import Mathlib

set_option maxRecDepth 8000

/-!
# Verification of the knowledge-base Tag Graph Engine and Query Pipeline

Shallow embedding of `knowledge_database/graph/graph.py` (class `Graph`) and
`knowledge_database/pipeline/pipeline.py` (class `Pipeline`), together with a
model of the small slice of the `networkx` library the code uses
(`nx.Graph` adjacency, `nx.all_neighbors`, `degree`, `nx.shortest_simple_paths`).

Modelling conventions:
* Python insertion-ordered `dict`s become association lists (`List (key × value)`)
  with "update in place, append if absent" semantics (`dictInsert`, `bump`).
* `nx.Graph` becomes an adjacency association list `List (Nat × List Nat)`;
  `add_edge` keeps neighbour lists duplicate-free exactly as the `dict`-backed
  adjacency of networkx does, and insertion order is preserved.
* `nx.shortest_simple_paths` is modelled by enumerating all simple paths and
  sorting them by nondecreasing length (the order networkx guarantees); it
  fails with `PyErr.noPath` when no path exists and `PyErr.nodeNotFound` when an
  endpoint is not a node, exactly the exceptions networkx raises.  Functions
  that can raise return `Except PyErr _`.
* Python float division in `format_triples` is modelled with `ℚ`.
* `datetime.datetime.strptime(date, "%Y-%m-%d")` is an order embedding of date
  strings into timestamps, so a document's date is modelled directly as a `Nat`
  sort key.
-/

/-- Python dict membership on an association list. -/
def hasKey {α β : Type} [DecidableEq α] (m : List (α × β)) (k : α) : Bool :=
  (m.map Prod.fst).contains k

/-- Python `d[k] = v` on an insertion-ordered dict: update in place if the key
is present, append otherwise. -/
def dictInsert {α β : Type} [DecidableEq α] (m : List (α × β)) (k : α) (v : β) :
    List (α × β) :=
  if hasKey m k then m.map (fun p => if p.1 = k then (k, v) else p)
  else m ++ [(k, v)]

/-- Python `d.get(k)`: value of the first matching key. -/
def dictGet? {α β : Type} [DecidableEq α] (m : List (α × β)) (k : α) : Option β :=
  (m.find? (fun p => p.1 = k)).map Prod.snd

/-- Index of the first occurrence of `name` in `l` (`none` when absent);
models lookup in the `node_to_idx` dict built by `enumerate`. -/
def idxOf? : List String → String → Option Nat
  | [], _ => none
  | x :: xs, name => if x = name then some 0 else (idxOf? xs name).map (· + 1)

/-- First-occurrence deduplication, the key order of a Python dict built by a
comprehension over `names`. -/
def firstOccur (names : List String) : List String :=
  names.foldl (fun acc n => if acc.contains n then acc else acc ++ [n]) []

/-- Exceptions of the Python code that the embedding can observe. -/
inductive PyErr : Type where
  | noPath : PyErr
  | nodeNotFound : PyErr
deriving DecidableEq, Repr

/-! ## The networkx model -/

/-- Adjacency structure of an `nx.Graph`: insertion-ordered association list
from node to its insertion-ordered, duplicate-free neighbour list. -/
abbrev Adj : Type := List (Nat × List Nat)

namespace NX

/-- Ensure `u` is a node of the adjacency structure (networkx adds missing
endpoints of `add_edge` in order). -/
def ensureNode (adj : Adj) (u : Nat) : Adj :=
  if hasKey adj u then adj else adj ++ [(u, [])]

/-- `adj[u][v] = data`: append `v` to `u`'s neighbour dict if absent. -/
def addArc (adj : Adj) (u v : Nat) : Adj :=
  adj.map (fun p => if p.1 = u then (p.1, if p.2.contains v then p.2 else p.2 ++ [v]) else p)

/-- Model of `nx.Graph.add_edge(u, v)`. -/
def addEdge (adj : Adj) (u v : Nat) : Adj :=
  addArc (addArc (ensureNode (ensureNode adj u) v) u v) v u

/-- Model of `nx.all_neighbors(graph, u)` (empty when `u` is not a node). -/
def allNeighbors (adj : Adj) (u : Nat) : List Nat :=
  ((adj.find? (fun p => p.1 = u)).map Prod.snd).getD []

/-- Is `u` a node of the graph? -/
def isNode (adj : Adj) (u : Nat) : Bool := hasKey adj u

/-- Model of `nx.Graph.degree(u)`: number of adjacent nodes, a self-loop
counting twice. -/
def degree (adj : Adj) (u : Nat) : Nat :=
  (allNeighbors adj u).length + (if (allNeighbors adj u).contains u then 1 else 0)

/-- All simple paths from `cur` to `t` avoiding `visited`, by depth-first
search; `fuel` bounds the recursion depth (any value larger than the number of
nodes is exact). -/
def simplePathsAux (adj : Adj) : Nat → Nat → Nat → List Nat → List (List Nat)
  | 0, _, _, _ => []
  | fuel + 1, cur, t, visited =>
    if cur = t then [[cur]]
    else
      ((allNeighbors adj cur).filter (fun v => ¬ (cur :: visited).contains v)).flatMap
        (fun v => (simplePathsAux adj fuel v t (cur :: visited)).map (cur :: ·))

/-- All simple paths from `s` to `t`. -/
def allSimplePaths (adj : Adj) (s t : Nat) : List (List Nat) :=
  simplePathsAux adj (adj.length + 1) s t []

/-- Model of the sequence produced by `nx.shortest_simple_paths(G, s, t)` when
it succeeds: every simple path from `s` to `t`, in nondecreasing length order
(ties in an implementation-defined but deterministic order). -/
def sortedSimplePaths (adj : Adj) (s t : Nat) : List (List Nat) :=
  (allSimplePaths adj s t).insertionSort (fun a b => a.length ≤ b.length)

/-- Model of `nx.shortest_simple_paths(G, s, t)`: raises `NodeNotFound` for an
unknown endpoint and `NetworkXNoPath` when no path exists. -/
def shortestSimplePathsE (adj : Adj) (s t : Nat) : Except PyErr (List (List Nat)) :=
  if ¬ (isNode adj s ∧ isNode adj t) then .error .nodeNotFound
  else if allSimplePaths adj s t = [] then .error .noPath
  else .ok (sortedSimplePaths adj s t)

end NX

/-! ## `knowledge_database.graph.Graph` -/

/-- Co-occurrence triple `{head, tail}` (the `relation` field is unused by the
graph code). -/
structure Triple : Type where
  head : String
  tail : String
deriving DecidableEq, Repr

/-- State of a loaded `Graph`: `idx_to_node` is the list of tag names in index
order (the dict `{idx: name}` built by `enumerate`); `adj` is the networkx
adjacency; `document_counts_list` is the dict set by `set_document_counts`. -/
structure Graph : Type where
  idx_to_node : List String
  adj : Adj
  document_counts_list : List (String × Nat)
deriving DecidableEq, Repr

namespace Graph

/-- The node-name key order of `{**{head: True ...}, **{tail: True ...}}`:
first occurrences of heads, then of tails not already seen. -/
def collectNodes (triples : List Triple) : List String :=
  firstOccur (triples.map (·.head) ++ triples.map (·.tail))

/-- `node_to_idx[name]` for a name known to be present (total with default 0;
the call sites only use names taken from the triples). -/
def keyIdx (names : List String) (name : String) : Nat :=
  (idxOf? names name).getD 0

/-- Model of `Graph.__init__(triples)`: build the index bijection and insert
every triple's edge in both directions. -/
def init (triples : List Triple) : Graph :=
  let names := collectNodes triples
  { idx_to_node := names
    adj := triples.foldl
      (fun adj t =>
        NX.addEdge (NX.addEdge adj (keyIdx names t.head) (keyIdx names t.tail))
          (keyIdx names t.tail) (keyIdx names t.head))
      []
    document_counts_list := [] }

/-- `self.node_to_idx.get(tag, None)`. -/
def node_to_idx (g : Graph) (tag : String) : Option Nat :=
  idxOf? g.idx_to_node tag

/-- `self.idx_to_node[idx]` (total with default `""`; call sites only use
indices produced by the graph itself). -/
def idxName (g : Graph) (idx : Nat) : String :=
  g.idx_to_node.getD idx ""

/-- `self.document_counts.get(tag, 0)`. -/
def docCount (g : Graph) (tag : String) : Nat :=
  (dictGet? g.document_counts_list tag).getD 0

/-- Model of `Graph.set_document_counts`. -/
def set_document_counts (g : Graph) (dc : List (String × Nat)) : Graph :=
  { g with document_counts_list := dc }

/-- The loop body of `Graph.yens` over the enumerated candidate paths:
keep each candidate of at most 3 nodes, and break once the running
`enumerate` index exceeds `k`. -/
def yensLoop : List (List Nat) → Nat → Nat → List (List Nat)
  | [], _, _ => []
  | p :: rest, k, idx =>
    (if p.length ≤ 3 then [p] else []) ++
      (if idx > k then [] else yensLoop rest k (idx + 1))

/-- Model of `Graph.yens(start, end, k)`; propagates the exception of
`nx.shortest_simple_paths` (no path / unknown node). -/
def yens (g : Graph) (start «end» k : Nat) : Except PyErr (List (List Nat)) :=
  (NX.shortestSimplePathsE g.adj start «end»).map (fun cands => yensLoop cands k 0)

/-- The loop body of `Graph.walk`: append each neighbour, and return once the
running `enumerate` index exceeds `k`. -/
def walkLoop : List Nat → Nat → Nat → List Nat
  | [], _, _ => []
  | v :: rest, k, n =>
    v :: (if n > k then [] else walkLoop rest k (n + 1))

/-- Model of `Graph.walk(start, k)`. -/
def walk (g : Graph) (start k : Nat) : List Nat :=
  start :: walkLoop (NX.allNeighbors g.adj start) k 0

/-- `tuple(sorted([start, end]))`. -/
def sortPair (a b : Nat) : Nat × Nat :=
  if a ≤ b then (a, b) else (b, a)

/-- One `triples[key] += 1` / `triples[key] = 1` step of `format_triples`. -/
def bump (m : List ((Nat × Nat) × Nat)) (key : Nat × Nat) : List ((Nat × Nat) × Nat) :=
  if hasKey m key then m.map (fun p => if p.1 = key then (p.1, p.2 + 1) else p)
  else m ++ [(key, 1)]

/-- The occurrence-counting dict of `format_triples`: for every path, every
adjacent pair counted under its sorted key. -/
def pairCounts (paths : List (List Nat)) : List ((Nat × Nat) × Nat) :=
  paths.foldl
    (fun m path => (path.zip path.tail).foldl (fun m se => bump m (sortPair se.1 se.2)) m)
    []

/-- `max(triples.values()) if triples else 1`. -/
def maxWeight (m : List ((Nat × Nat) × Nat)) : Nat :=
  if m = [] then 1 else (m.map Prod.snd).foldl Nat.max 0

/-- A visualization link as emitted by `format_triples`. -/
structure Link : Type where
  source : String
  relation : String
  target : String
  value : Nat
  weight : ℚ
deriving DecidableEq, Repr

/-- Model of `Graph.format_triples(paths)`. -/
def format_triples (g : Graph) (paths : List (List Nat)) : List Link :=
  let m := pairCounts paths
  let mw := maxWeight m
  m.map (fun p =>
    { source := g.idxName p.1.1
      relation := "link"
      target := g.idxName p.1.2
      value := p.2
      weight := (p.2 : ℚ) / (mw : ℚ) })

/-- A visualization node as built by `Graph.__call__`. -/
structure VNode : Type where
  id : String
  color : String
  degree : Nat
  documentCount : Nat
deriving DecidableEq, Repr

/-- The seed loop of `Graph.__call__` for one tag list and its colour:
threads the `output_nodes` dict and the list of known seed indices. -/
def seedFold (g : Graph) (color : String) (tagList : List String)
    (st : List (String × VNode) × List Nat) : List (String × VNode) × List Nat :=
  tagList.foldl
    (fun st tag =>
      match g.node_to_idx tag with
      | none =>
        (dictInsert st.1 tag
          { id := tag, color := color, degree := 0, documentCount := g.docCount tag },
         st.2)
      | some idx =>
        (dictInsert st.1 tag
          { id := tag, color := color, degree := NX.degree g.adj idx,
            documentCount := g.docCount tag },
         st.2 ++ [idx]))
    st

/-- `itertools.combinations(nodes, 2)` in iteration order. -/
def combinations2 : List Nat → List (Nat × Nat)
  | [] => []
  | x :: xs => xs.map (fun y => (x, y)) ++ combinations2 xs

/-- The `try: paths += yens(...) except: continue` step. -/
def tryYens (g : Graph) (start «end» k : Nat) : List (List Nat) :=
  match g.yens start «end» k with
  | .ok ps => ps
  | .error _ => []

/-- The pairwise path-search phase of `Graph.__call__`. -/
def pathsPhase (g : Graph) (nodes : List Nat) (k_yens : Nat) : List (List Nat) :=
  if 2 ≤ nodes.length then
    (combinations2 nodes).foldl
      (fun acc se => if se.1 ≠ se.2 then acc ++ tryYens g se.1 se.2 k_yens else acc)
      []
  else []

/-- The walk fallback of `Graph.__call__`. -/
def withWalks (g : Graph) (nodes : List Nat) (paths : List (List Nat))
    (k_walk : Nat) : List (List Nat) :=
  if nodes.length = 1 ∨ paths = [] then paths ++ nodes.map (fun s => g.walk s k_walk)
  else paths

/-- The intermediate-node phase of `Graph.__call__`: add a white node for every
path member not already present. -/
def addPathNodes (g : Graph) (out : List (String × VNode)) (paths : List (List Nat)) :
    List (String × VNode) :=
  paths.foldl
    (fun out path =>
      path.foldl
        (fun out idx =>
          let name := g.idxName idx
          if hasKey out name then out
          else out ++ [(name,
            { id := name, color := "#FFFFFF", degree := NX.degree g.adj idx,
              documentCount := g.docCount name })])
        out)
    out

/-- Model of `Graph.__call__(tags, retrieved_tags, k_yens, k_walk)`. -/
def call (g : Graph) (tags retrieved_tags : List String) (k_yens k_walk : Nat) :
    List VNode × List Link :=
  let st := seedFold g "#19bc8e" retrieved_tags (seedFold g "#86E5FF" tags ([], []))
  let paths := withWalks g st.2 (pathsPhase g st.2 k_yens) k_walk
  let out := addPathNodes g st.1 paths
  (out.map Prod.snd, g.format_triples paths)

end Graph

/-! ## `knowledge_database.pipeline.Pipeline` -/

/-- A document as the pipeline consumes it; `date` is the `strptime` sort key
of the ISO date string, `tags`/`extra_tags` the `"tags"`/`"extra-tags"`
fields. -/
structure Doc : Type where
  url : String
  date : Nat
  tags : List String
  extra_tags : List String
deriving DecidableEq, Repr

namespace Pipeline

/-- One `document_counts[tag] = document_counts.get(tag, 0) + 1` step. -/
def bumpCount (m : List (String × Nat)) (tag : String) : List (String × Nat) :=
  dictInsert m tag ((dictGet? m tag).getD 0 + 1)

/-- The document-count precomputation of `Pipeline.__init__`: for every
document, every occurrence in `tags + extra-tags` increments the tag's
counter. -/
def document_counts (documents : List Doc) : List (String × Nat) :=
  documents.foldl
    (fun m doc => (doc.tags ++ doc.extra_tags).foldl bumpCount m)
    []

/-- The `latest_documents` cache of `Pipeline.__init__`: all documents sorted
by date newest first (a stable descending sort, as Python's
`sorted(..., reverse=True)`), truncated to `k_latest_documents`. -/
def latest_documents (documents : List Doc) (k_latest_documents : Nat) : List Doc :=
  (documents.insertionSort (fun a b => b.date ≤ a.date)).take k_latest_documents

/-- Model of `Pipeline.get_latest_documents(count)` over the cache. -/
def get_latest_documents (cache : List Doc) (count : Nat) : List Doc :=
  cache.take count

end Pipeline

/-! ## Concrete inputs used to instantiate the theorems -/

/-- A diamond with a chord: `a` and `b` are joined directly and through the two
intermediates `c` and `d`; indices `a = 0`, `c = 1`, `d = 2`, `b = 3`. -/
def exGraphDiamond : Graph :=
  Graph.init [⟨"a", "b"⟩, ⟨"a", "c"⟩, ⟨"c", "b"⟩, ⟨"a", "d"⟩, ⟨"d", "b"⟩]

/-- A star: `s` (index 0) with the three neighbours `a`, `b`, `c`. -/
def exGraphStar : Graph :=
  Graph.init [⟨"s", "a"⟩, ⟨"s", "b"⟩, ⟨"s", "c"⟩]

/-- Two connected components: `a — b` and `c — d`; indices `a = 0`, `c = 1`,
`b = 2`, `d = 3`, so `0` and `1` lie in different components. -/
def exGraphTwoComponents : Graph :=
  Graph.init [⟨"a", "b"⟩, ⟨"c", "d"⟩]

/-- A single self-loop triple: head and tail are both `"a"`. -/
def exGraphSelfLoop : Graph :=
  Graph.init [⟨"a", "a"⟩]

/-- A single edge `a — b`. -/
def exGraphEdge : Graph :=
  Graph.init [⟨"a", "b"⟩]

/-- One document carrying the same tag both as a manual tag and as an
enrichment tag. -/
def exDocDoubleTag : Doc :=
  { url := "u", date := 1, tags := ["a"], extra_tags := ["a"] }

/-- Three documents with distinct dates, deliberately listed out of order. -/
def exDocs : List Doc :=
  [{ url := "u1", date := 5, tags := ["a"], extra_tags := [] },
   { url := "u2", date := 9, tags := ["b"], extra_tags := [] },
   { url := "u3", date := 7, tags := ["a"], extra_tags := ["b"] }]

/-! ## General lemmas about the loop bodies -/

/-- The `yens` loop with `enumerate` counter at `idx ≤ k + 1` consumes exactly
the next `k + 2 - idx` candidates and keeps those of at most 3 nodes. -/
theorem yensLoop_eq_take_filter (cands : List (List Nat)) (k : Nat) :
    ∀ idx, idx ≤ k + 1 →
      Graph.yensLoop cands k idx =
        (cands.take (k + 2 - idx)).filter (fun p => p.length ≤ 3) := by
  induction cands with
  | nil => intro idx _; simp [Graph.yensLoop]
  | cons p rest ih =>
    intro idx hidx
    by_cases hbreak : idx > k
    · have hidx' : idx = k + 1 := by omega
      have h1 : k + 2 - idx = 1 := by omega
      simp only [Graph.yensLoop, if_pos hbreak, h1, List.take_succ_cons, List.take_zero]
      by_cases hlen : p.length ≤ 3 <;> simp [hlen]
    · have h1 : k + 2 - idx = (k + 2 - (idx + 1)) + 1 := by omega
      simp only [Graph.yensLoop, if_neg hbreak, h1, List.take_succ_cons,
        ih (idx + 1) (by omega)]
      by_cases hlen : p.length ≤ 3 <;> simp [hlen]

/-- The `walk` loop with `enumerate` counter at `n ≤ k + 1` appends exactly the
next `k + 2 - n` neighbours. -/
theorem walkLoop_eq_take (ns : List Nat) (k : Nat) :
    ∀ n, n ≤ k + 1 → Graph.walkLoop ns k n = ns.take (k + 2 - n) := by
  induction ns with
  | nil => intro n _; simp [Graph.walkLoop]
  | cons v rest ih =>
    intro n hn
    by_cases hbreak : n > k
    · have h1 : k + 2 - n = 1 := by omega
      simp [Graph.walkLoop, if_pos hbreak, h1]
    · have h1 : k + 2 - n = (k + 2 - (n + 1)) + 1 := by omega
      simp [Graph.walkLoop, if_neg hbreak, h1, ih (n + 1) (by omega)]

/-! ## C1: the `yens` candidate-inspection boundary -/

/-- C1 (amended): for every enumeration outcome of
`nx.shortest_simple_paths`, `Graph.yens(start, end, k)` equals the
length-≤-3 filter applied to the first `k + 2` (not `k + 1`) enumerated
candidate paths: the loop body runs for `enumerate` indices `0 … k+1`
before `idx > k` breaks. -/
theorem yens_eq_filter_take_succ (g : Graph) (start «end» k : Nat)
    (cands : List (List Nat))
    (h : NX.shortestSimplePathsE g.adj start «end» = .ok cands) :
    g.yens start «end» k = .ok ((cands.take (k + 2)).filter (fun p => p.length ≤ 3)) := by
  have h2 := yensLoop_eq_take_filter cands k 0 (by omega)
  simp only [Nat.sub_zero] at h2
  simp only [Graph.yens, h, Except.map, h2]

/-- C1 (witness): on the diamond graph with `k = 0`, the enumeration yields
`[[0,3], [0,1,3], [0,2,3]]` and `yens` keeps the filter of its first two
candidates. -/
theorem yens_eq_filter_take_succ_witness :
    Graph.yens exGraphDiamond 0 3 0 =
      .ok ((([[0, 3], [0, 1, 3], [0, 2, 3]] : List (List Nat)).take 2).filter
        (fun p => p.length ≤ 3)) :=
  yens_eq_filter_take_succ exGraphDiamond 0 3 0 [[0, 3], [0, 1, 3], [0, 2, 3]] rfl

/-- C1 (counterexample): with `k = 0` on the diamond graph, `yens` keeps paths
from two inspected candidates, so it differs from the length filter of the
first `k + 1 = 1` enumerated candidates. -/
theorem yens_take_k_succ_one_counterexample :
    ¬ (Graph.yens exGraphDiamond 0 3 0 =
        .ok (((NX.sortedSimplePaths exGraphDiamond.adj 0 3).take (0 + 1)).filter
          (fun p => p.length ≤ 3))) := by
  intro h
  have h2 : Except.ok (ε := PyErr) ([[0, 3], [0, 1, 3]] : List (List Nat)) =
      Except.ok ([[0, 3]] : List (List Nat)) := by
    calc Except.ok (ε := PyErr) ([[0, 3], [0, 1, 3]] : List (List Nat))
        = Graph.yens exGraphDiamond 0 3 0 := rfl
      _ = .ok (((NX.sortedSimplePaths exGraphDiamond.adj 0 3).take (0 + 1)).filter
          (fun p => p.length ≤ 3)) := h
      _ = Except.ok ([[0, 3]] : List (List Nat)) := rfl
  exact absurd (Except.ok.inj h2) (by decide)

/-! ## C2: the `walk` length boundary -/

/-- C2 (amended): for every known start index, `Graph.walk(start, k)` is the
start node followed by the first `k + 2` (not `k + 1`) neighbours, so its
length is at most `k + 3` (not `k + 2`): the loop appends the neighbours at
`enumerate` indices `0 … k+1` before `n > k` returns. -/
theorem walk_length_le (g : Graph) (start k : Nat)
    (h : NX.isNode g.adj start = true) :
    g.walk start k = start :: (NX.allNeighbors g.adj start).take (k + 2) ∧
      (g.walk start k).length ≤ k + 3 := by
  have h2 := walkLoop_eq_take (NX.allNeighbors g.adj start) k 0 (by omega)
  simp only [Nat.sub_zero] at h2
  constructor
  · simp only [Graph.walk, h2]
  · simp only [Graph.walk, h2, List.length_cons, List.length_take]
    omega

/-- C2 (witness): on the star graph the walk from its centre with `k = 0`
returns the start plus two neighbours, within the `k + 3` bound. -/
theorem walk_length_le_witness :
    Graph.walk exGraphStar 0 0 = 0 :: (NX.allNeighbors exGraphStar.adj 0).take 2 ∧
      (Graph.walk exGraphStar 0 0).length ≤ 3 :=
  walk_length_le exGraphStar 0 0 rfl

/-- C2 (counterexample): on the star graph, `walk(0, 0)` has 3 elements
(start plus `k + 2 = 2` appended neighbours), exceeding the claimed `k + 2`
bound. -/
theorem walk_length_k_succ_two_counterexample :
    ¬ ((Graph.walk exGraphStar 0 0).length ≤ 0 + 2) := by decide

/-! ## C4: graph construction from zero triples -/

/-- C4 (counterexample): `Graph.__init__` on the empty triple list succeeds,
producing the graph with empty index mapping and empty adjacency — it does
not signal any `EmptyInputError` (no such error exists in the code). -/
theorem init_empty_counterexample :
    (Graph.init []).idx_to_node = [] ∧ (Graph.init []).adj = [] :=
  ⟨rfl, rfl⟩

/-- C4 (amended): building the graph from zero co-occurrence triples succeeds
and yields the empty graph: empty tag index, no edges, no document counts. -/
theorem init_empty_graph :
    Graph.init [] = { idx_to_node := [], adj := [], document_counts_list := [] } :=
  rfl

/-! ## C5: no path between the endpoints -/

/-- C5 (amended): when the two known endpoints admit no path (for distinct
endpoints, exactly the case of different connected components),
`Graph.yens` propagates the `NetworkXNoPath` exception of
`nx.shortest_simple_paths` rather than returning an empty list; the
`try/except` in `Graph.__call__` catches it, so the pair contributes an empty
path list and no error escapes the subgraph assembly. -/
theorem yens_no_path (g : Graph) (s t k : Nat)
    (hs : NX.isNode g.adj s = true) (ht : NX.isNode g.adj t = true)
    (hp : NX.allSimplePaths g.adj s t = []) :
    g.yens s t k = .error .noPath ∧ Graph.tryYens g s t k = [] := by
  have h1 : NX.shortestSimplePathsE g.adj s t = .error .noPath := by
    simp [NX.shortestSimplePathsE, hs, ht, hp]
  refine ⟨?_, ?_⟩
  · simp [Graph.yens, h1, Except.map]
  · simp [Graph.tryYens, Graph.yens, h1, Except.map]

/-- C5 (witness): in the two-component graph, the known indices 0 (`"a"`) and
1 (`"c"`) lie in different components; `yens` raises no-path and the caller
sees no paths. -/
theorem yens_no_path_witness :
    Graph.yens exGraphTwoComponents 0 1 3 = .error .noPath ∧
      Graph.tryYens exGraphTwoComponents 0 1 3 = [] :=
  yens_no_path exGraphTwoComponents 0 1 3 rfl rfl rfl

/-- C5 (counterexample): for the two-component graph, `yens` on endpoints in
different components evaluates to the `NetworkXNoPath` exception, not to an
empty list of paths. -/
theorem yens_no_path_counterexample :
    Graph.yens exGraphTwoComponents 0 1 3 = .error PyErr.noPath ∧
      Graph.yens exGraphTwoComponents 0 1 3 ≠ Except.ok [] := by
  refine ⟨rfl, ?_⟩
  intro h
  have h0 : Graph.yens exGraphTwoComponents 0 1 3 = Except.error PyErr.noPath := rfl
  rw [h0] at h
  exact Except.noConfusion h

/-! ## Association-list dictionary lemmas -/

/-- A present key is found, and the found entry carries that key. -/
theorem find?_key_of_hasKey {α β : Type} [DecidableEq α] (m : List (α × β)) (k : α)
    (h : hasKey m k = true) :
    ∃ e, m.find? (fun p => p.1 = k) = some e ∧ e.1 = k := by
  induction m with
  | nil => simp [hasKey] at h
  | cons e es ih =>
    by_cases hk : e.1 = k
    · exact ⟨e, by simp [List.find?, hk], hk⟩
    · have h' : hasKey es k = true := by
        simp only [hasKey, List.map_cons, List.contains_cons] at h
        rcases Bool.or_eq_true_iff.mp h with h | h
        · have hke : k = e.1 := by simpa using h
          exact absurd hke.symm hk
        · simpa [hasKey] using h
      obtain ⟨e', he', hk'⟩ := ih h'
      exact ⟨e', by simp [List.find?, hk, he'], hk'⟩

/-- An absent key is not found. -/
theorem find?_eq_none_of_not_hasKey {α β : Type} [DecidableEq α] (m : List (α × β))
    (k : α) (h : hasKey m k = false) :
    m.find? (fun p => p.1 = k) = none := by
  induction m with
  | nil => simp
  | cons e es ih =>
    simp only [hasKey, List.map_cons, List.contains_cons, Bool.or_eq_false_iff] at h
    have h1 : ¬ (e.1 = k) := by
      intro hk; simp [hk] at h
    simp [List.find?, h1, ih (by simpa [hasKey] using h.2)]

/-- Looking up the key just written returns the written value. -/
theorem dictGet?_dictInsert_self {α β : Type} [DecidableEq α] (m : List (α × β))
    (k : α) (v : β) : dictGet? (dictInsert m k v) k = some v := by
  by_cases h : hasKey m k = true
  · obtain ⟨e, he, hk⟩ := find?_key_of_hasKey m k h
    have hpred : (fun p : α × β => decide (p.1 = k)) ∘
        (fun p : α × β => if p.1 = k then (k, v) else p) =
        fun p : α × β => decide (p.1 = k) := by
      funext p
      by_cases hp : p.1 = k <;> simp [hp]
    simp only [dictGet?, dictInsert, if_pos h, List.find?_map, hpred, he,
      Option.map_some]
    simp [hk]
  · have h' : hasKey m k = false := by simpa using h
    simp only [dictGet?, dictInsert, h', Bool.false_eq_true, if_false,
      List.find?_append, find?_eq_none_of_not_hasKey m k h']
    simp

/-- Writing one key leaves the lookup of any other key unchanged. -/
theorem dictGet?_dictInsert_ne {α β : Type} [DecidableEq α] (m : List (α × β))
    (k k' : α) (v : β) (hne : k' ≠ k) :
    dictGet? (dictInsert m k v) k' = dictGet? m k' := by
  by_cases h : hasKey m k = true
  · have hpred : (fun p : α × β => decide (p.1 = k')) ∘
        (fun p : α × β => if p.1 = k then (k, v) else p) =
        fun p : α × β => decide (p.1 = k') := by
      funext p
      by_cases hp : p.1 = k
      · simp [hp, (by simpa using hne.symm : ¬ (k = k'))]
      · simp [hp]
    simp only [dictGet?, dictInsert, if_pos h, List.find?_map, hpred]
    cases hfind : m.find? (fun p => p.1 = k') with
    | none => simp
    | some e =>
      have he : e.1 = k' := by simpa using List.find?_some hfind
      have hek : ¬ (e.1 = k) := fun hc => hne (he ▸ hc)
      simp [hek]
  · have h' : hasKey m k = false := by simpa using h
    simp only [dictGet?, dictInsert, h', Bool.false_eq_true, if_false,
      List.find?_append]
    cases hfind : m.find? (fun p => p.1 = k') with
    | none => simp [(by simpa using hne.symm : ¬ (k = k'))]
    | some e => simp

/-! ## C6: the per-tag document counts -/

namespace Pipeline

/-- `document_counts.get(tag, 0)` on the counting dict. -/
def countOf (m : List (String × Nat)) (tag : String) : Nat :=
  (dictGet? m tag).getD 0

end Pipeline

/-- One increment step changes exactly the incremented tag's count. -/
theorem countOf_bumpCount (m : List (String × Nat)) (t tag : String) :
    Pipeline.countOf (Pipeline.bumpCount m t) tag =
      Pipeline.countOf m tag + (if t = tag then 1 else 0) := by
  by_cases h : t = tag
  · subst h
    simp [Pipeline.countOf, Pipeline.bumpCount, dictGet?_dictInsert_self]
  · simp [Pipeline.countOf, Pipeline.bumpCount,
      dictGet?_dictInsert_ne m t tag _ (fun hc => h hc.symm), h]

/-- Folding the increments of one tag list adds that list's occurrence count. -/
theorem countOf_foldl_bumpCount (tags : List String) (tag : String) :
    ∀ m, Pipeline.countOf (tags.foldl Pipeline.bumpCount m) tag =
      Pipeline.countOf m tag + tags.count tag := by
  induction tags with
  | nil => intro m; simp
  | cons t ts ih =>
    intro m
    have hc : (t :: ts).count tag = ts.count tag + (if t = tag then 1 else 0) := by
      simp only [List.count_cons]
      by_cases h : t = tag <;> simp [h]
    simp only [List.foldl_cons, ih, countOf_bumpCount, hc]
    omega

/-- C6 (amended): the precomputed `document_count` of a tag is the total number
of occurrences of the tag over all documents' `tags + extra-tags`
concatenations (a document contributes its multiplicity, not at most 1);
whenever no document lists a tag more than once, this coincides with the
number of documents whose tag set, including enrichment tags, contains the
tag. -/
theorem document_counts_occurrences (docs : List Doc) (tag : String) :
    Pipeline.countOf (Pipeline.document_counts docs) tag =
      (docs.map (fun d => (d.tags ++ d.extra_tags).count tag)).sum ∧
    ((∀ d ∈ docs, (d.tags ++ d.extra_tags).count tag ≤ 1) →
      Pipeline.countOf (Pipeline.document_counts docs) tag =
        (docs.filter (fun d => tag ∈ d.tags ++ d.extra_tags)).length) := by
  have main : ∀ m, Pipeline.countOf
      (docs.foldl (fun m doc => (doc.tags ++ doc.extra_tags).foldl Pipeline.bumpCount m) m)
        tag =
      Pipeline.countOf m tag + (docs.map (fun d => (d.tags ++ d.extra_tags).count tag)).sum := by
    induction docs with
    | nil => intro m; simp
    | cons d ds ih =>
      intro m
      simp only [List.foldl_cons, ih, countOf_foldl_bumpCount, List.map_cons,
        List.sum_cons]
      omega
  have h1 : Pipeline.countOf (Pipeline.document_counts docs) tag =
      (docs.map (fun d => (d.tags ++ d.extra_tags).count tag)).sum := by
    have := main []
    simpa [Pipeline.document_counts, Pipeline.countOf, dictGet?] using this
  refine ⟨h1, fun hle => ?_⟩
  rw [h1]
  clear h1 main
  induction docs with
  | nil => simp
  | cons d ds ih =>
    have hd := hle d (List.mem_cons_self _ _)
    have hds : ∀ d' ∈ ds, (d'.tags ++ d'.extra_tags).count tag ≤ 1 :=
      fun d' hd' => hle d' (List.mem_cons_of_mem _ hd')
    rw [List.map_cons, List.sum_cons, List.filter_cons]
    by_cases hmem : tag ∈ d.tags ++ d.extra_tags
    · have h1 : (d.tags ++ d.extra_tags).count tag = 1 := by
        have hpos := List.count_pos_iff.mpr hmem
        omega
      rw [h1,
        if_pos (show (decide (tag ∈ d.tags ++ d.extra_tags)) = true from
          decide_eq_true hmem),
        List.length_cons, ih hds]
      omega
    · have h0 : (d.tags ++ d.extra_tags).count tag = 0 := List.count_eq_zero.mpr hmem
      rw [h0,
        if_neg (show ¬ (decide (tag ∈ d.tags ++ d.extra_tags)) = true from by
          simpa using hmem),
        ih hds]
      omega

/-- C6 (witness): with documents whose per-document tag multiset has no
duplicate tags, the count is both the occurrence sum and the number of
containing documents. -/
theorem document_counts_occurrences_witness :
    Pipeline.countOf (Pipeline.document_counts exDocs) "a" =
      (exDocs.filter (fun d => "a" ∈ d.tags ++ d.extra_tags)).length :=
  (document_counts_occurrences exDocs "a").2 (by decide)

/-- C6 (counterexample): a single document listing tag `"a"` both manually and
as an enrichment tag gets `document_counts["a"] = 2`, although only one
document's tag set contains `"a"`. -/
theorem document_counts_double_counterexample :
    Pipeline.countOf (Pipeline.document_counts [exDocDoubleTag]) "a" = 2 ∧
      ([exDocDoubleTag].filter (fun d => "a" ∈ d.tags ++ d.extra_tags)).length = 1 ∧
      Pipeline.countOf (Pipeline.document_counts [exDocDoubleTag]) "a" ≠
        ([exDocDoubleTag].filter (fun d => "a" ∈ d.tags ++ d.extra_tags)).length := by
  refine ⟨?_, ?_, ?_⟩ <;> decide

/-! ## C8: the latest-documents cache -/

/-- C8: `get_latest_documents(count)` slices exactly the first `count` entries
of the precomputed cache; the cache is sorted by date newest first; and a
`count` at least the cache size returns the whole cache. -/
theorem get_latest_documents_take (docs : List Doc) (kL count : Nat) :
    Pipeline.get_latest_documents (Pipeline.latest_documents docs kL) count =
      (Pipeline.latest_documents docs kL).take count ∧
    List.Sorted (fun a b : Doc => b.date ≤ a.date) (Pipeline.latest_documents docs kL) ∧
    ((Pipeline.latest_documents docs kL).length ≤ count →
      Pipeline.get_latest_documents (Pipeline.latest_documents docs kL) count =
        Pipeline.latest_documents docs kL) := by
  refine ⟨rfl, ?_, fun hlen => List.take_of_length_le hlen⟩
  haveI htot : IsTotal Doc (fun a b : Doc => b.date ≤ a.date) :=
    ⟨fun a b => Nat.le_total b.date a.date⟩
  haveI htrans : IsTrans Doc (fun a b : Doc => b.date ≤ a.date) :=
    ⟨fun _ _ _ hab hbc => le_trans hbc hab⟩
  exact List.Pairwise.sublist (List.take_sublist _ _)
    (List.sorted_insertionSort (fun a b : Doc => b.date ≤ a.date) docs)

/-- C8 (witness): on three documents with distinct out-of-order dates and a
cache larger than the document set, asking for more documents than exist
returns the whole date-descending cache. -/
theorem get_latest_documents_take_witness :
    Pipeline.get_latest_documents (Pipeline.latest_documents exDocs 200) 5 =
      Pipeline.latest_documents exDocs 200 :=
  (get_latest_documents_take exDocs 200 5).2.2 (by decide)

/-! ## C3: edge-weight normalization in `format_triples` -/

/-- Occurrence counters stay at least 1 under a bump. -/
theorem bump_values_pos (m : List ((Nat × Nat) × Nat)) (key : Nat × Nat)
    (h : ∀ c ∈ m.map Prod.snd, 1 ≤ c) :
    ∀ c ∈ (Graph.bump m key).map Prod.snd, 1 ≤ c := by
  intro c hc
  unfold Graph.bump at hc
  by_cases hk : hasKey m key = true
  · rw [if_pos hk, List.map_map] at hc
    obtain ⟨p, hp, hpc⟩ := List.mem_map.mp hc
    by_cases hpk : p.1 = key
    · simp [hpk] at hpc
      omega
    · simp [hpk] at hpc
      exact hpc ▸ h p.2 (List.mem_map.mpr ⟨p, hp, rfl⟩)
  · rw [if_neg hk, List.map_append] at hc
    rcases List.mem_append.mp hc with hc | hc
    · exact h c hc
    · simp at hc
      omega

/-- All counters produced by `pairCounts` are at least 1. -/
theorem pairCounts_values_pos (paths : List (List Nat)) :
    ∀ c ∈ (Graph.pairCounts paths).map Prod.snd, 1 ≤ c := by
  have inner : ∀ (l : List (Nat × Nat)) (m : List ((Nat × Nat) × Nat)),
      (∀ c ∈ m.map Prod.snd, 1 ≤ c) →
      ∀ c ∈ (l.foldl (fun m se => Graph.bump m (Graph.sortPair se.1 se.2)) m).map Prod.snd,
        1 ≤ c := by
    intro l
    induction l with
    | nil => intro m hm; exact hm
    | cons se rest ih =>
      intro m hm
      exact ih _ (bump_values_pos m _ hm)
  have outer : ∀ (ps : List (List Nat)) (m : List ((Nat × Nat) × Nat)),
      (∀ c ∈ m.map Prod.snd, 1 ≤ c) →
      ∀ c ∈ (ps.foldl
        (fun m path =>
          (path.zip path.tail).foldl (fun m se => Graph.bump m (Graph.sortPair se.1 se.2)) m)
        m).map Prod.snd, 1 ≤ c := by
    intro ps
    induction ps with
    | nil => intro m hm; exact hm
    | cons path rest ih =>
      intro m hm
      exact ih _ (inner _ m hm)
  intro c hc
  exact outer paths [] (by simp) c hc

/-- Every element of the list bounds into its `Nat.max` fold. -/
theorem foldl_max_bounds (l : List Nat) :
    ∀ a, (∀ x ∈ l, x ≤ l.foldl Nat.max a) ∧ a ≤ l.foldl Nat.max a := by
  induction l with
  | nil => intro a; simp
  | cons x xs ih =>
    intro a
    obtain ⟨hmem, hacc⟩ := ih (Nat.max a x)
    refine ⟨?_, ?_⟩
    · intro y hy
      rcases List.mem_cons.mp hy with rfl | hy
      · exact le_trans (Nat.le_max_right a y) hacc
      · exact hmem y hy
    · exact le_trans (Nat.le_max_left a x) hacc

/-- The `Nat.max` fold is the seed or an element of the list. -/
theorem foldl_max_attained (l : List Nat) :
    ∀ a, l.foldl Nat.max a = a ∨ l.foldl Nat.max a ∈ l := by
  induction l with
  | nil => intro a; simp
  | cons x xs ih =>
    intro a
    rcases ih (Nat.max a x) with h | h
    · rcases Nat.le_total a x with hax | hxa
      · have hm : Nat.max a x = x := by
          simp only [Nat.max_def]; split <;> omega
        exact Or.inr (by
          rw [List.foldl_cons, h, hm]
          exact List.mem_cons_self _ _)
      · have hm : Nat.max a x = a := by
          simp only [Nat.max_def]; split <;> omega
        exact Or.inl (by rw [List.foldl_cons, h, hm])
    · exact Or.inr (List.mem_cons_of_mem _ h)

/-- For a nonempty counter dict, `max(triples.values())` is attained, bounds
every counter, and is at least 1. -/
theorem maxWeight_spec (m : List ((Nat × Nat) × Nat)) (hne : m ≠ [])
    (hpos : ∀ c ∈ m.map Prod.snd, 1 ≤ c) :
    Graph.maxWeight m ∈ m.map Prod.snd ∧
      (∀ c ∈ m.map Prod.snd, c ≤ Graph.maxWeight m) ∧ 1 ≤ Graph.maxWeight m := by
  have hvne : m.map Prod.snd ≠ [] := by
    intro hc
    exact hne (List.map_eq_nil_iff.mp hc)
  obtain ⟨v, hv⟩ := List.exists_mem_of_ne_nil _ hvne
  have hbounds := foldl_max_bounds (m.map Prod.snd) 0
  have hatt := foldl_max_attained (m.map Prod.snd) 0
  have hmw : Graph.maxWeight m = (m.map Prod.snd).foldl Nat.max 0 := by
    simp [Graph.maxWeight, hne]
  rcases hatt with h0 | hmem
  · exfalso
    have h1 := hbounds.1 v hv
    have h2 := hpos v hv
    omega
  · refine ⟨hmw ▸ hmem, fun c hc => hmw ▸ hbounds.1 c hc, ?_⟩
    have := hpos _ (hmw ▸ hmem)
    omega

/-- C3: every emitted link's weight is its occurrence count divided by the
maximum occurrence count of the response; with no collected pairs the edge set
is empty (no division happens), and with at least one pair the maximum weight
is exactly 1. -/
theorem format_triples_normalized (g : Graph) (paths : List (List Nat)) :
    (Graph.pairCounts paths = [] → g.format_triples paths = []) ∧
    (∀ l ∈ g.format_triples paths,
      l.weight = (l.value : ℚ) / (Graph.maxWeight (Graph.pairCounts paths) : ℚ)) ∧
    (Graph.pairCounts paths ≠ [] →
      ((g.format_triples paths).map (fun l => l.weight)).maximum = ((1 : ℚ) : WithBot ℚ)) := by
  refine ⟨fun h => by simp [Graph.format_triples, h], ?_, fun hne => ?_⟩
  · intro l hl
    unfold Graph.format_triples at hl
    obtain ⟨p, hp, rfl⟩ := List.mem_map.mp hl
    rfl
  · have hpos := pairCounts_values_pos paths
    obtain ⟨hmem, hmax, hone⟩ := maxWeight_spec (Graph.pairCounts paths) hne hpos
    set m := Graph.pairCounts paths with hm
    set mw := Graph.maxWeight m with hmwdef
    have hmwQ : (0 : ℚ) < (mw : ℚ) := by exact_mod_cast hone
    have hmap : (g.format_triples paths).map (fun l => l.weight) =
        m.map (fun p => (p.2 : ℚ) / (mw : ℚ)) := by
      simp [Graph.format_triples, List.map_map, Function.comp]
    rw [hmap]
    rw [List.maximum_eq_coe_iff]
    constructor
    · obtain ⟨p, hp, hpv⟩ := List.mem_map.mp hmem
      refine List.mem_map.mpr ⟨p, hp, ?_⟩
      rw [hpv]
      exact div_self (ne_of_gt hmwQ)
    · intro w hw
      obtain ⟨p, hp, rfl⟩ := List.mem_map.mp hw
      rw [div_le_one hmwQ]
      exact_mod_cast hmax p.2 (List.mem_map.mpr ⟨p, hp, rfl⟩)

/-- C3 (witness): formatting the single path `[0, 1]` on the single-edge graph
yields a nonempty link set whose maximum weight is exactly 1. -/
theorem format_triples_normalized_witness :
    ((Graph.format_triples exGraphEdge [[0, 1]]).map (fun l => l.weight)).maximum =
      ((1 : ℚ) : WithBot ℚ) :=
  (format_triples_normalized exGraphEdge [[0, 1]]).2.2 (by decide)

/-! ## Lemmas about the index mapping and adjacency construction -/

/-- A resolved index points into the name list, at the resolved name. -/
theorem idxOf?_spec {l : List String} {name : String} :
    ∀ {i : Nat}, idxOf? l name = some i → ∃ hi : i < l.length, l.get ⟨i, hi⟩ = name := by
  induction l with
  | nil => intro i h; simp [idxOf?] at h
  | cons x xs ih =>
    intro i h
    unfold idxOf? at h
    by_cases hx : x = name
    · rw [if_pos hx] at h
      obtain rfl : i = 0 := by simpa using h.symm
      exact ⟨by simp, hx⟩
    · rw [if_neg hx] at h
      cases hj : idxOf? xs name with
      | none => rw [hj] at h; simp at h
      | some j =>
        rw [hj] at h
        obtain rfl : i = j + 1 := by simpa using h.symm
        obtain ⟨hji, hget⟩ := ih hj
        exact ⟨by simpa using Nat.succ_lt_succ hji, by simpa using hget⟩

/-- First-occurrence deduplication preserves exactly the members. -/
theorem firstOccur_mem_iff (l : List String) (x : String) :
    x ∈ firstOccur l ↔ x ∈ l := by
  have aux : ∀ (ys : List String) (acc : List String),
      x ∈ ys.foldl (fun acc n => if acc.contains n then acc else acc ++ [n]) acc ↔
        x ∈ acc ∨ x ∈ ys := by
    intro ys
    induction ys with
    | nil => intro acc; simp
    | cons n ns ih =>
      intro acc
      rw [List.foldl_cons]
      by_cases hc : acc.contains n = true
      · rw [if_pos hc, ih]
        constructor
        · rintro (h | h)
          · exact Or.inl h
          · exact Or.inr (List.mem_cons_of_mem _ h)
        · rintro (h | h)
          · exact Or.inl h
          · rcases List.mem_cons.mp h with rfl | h
            · exact Or.inl (List.elem_iff.mp hc)
            · exact Or.inr h
      · rw [if_neg hc, ih]
        constructor
        · rintro (h | h)
          · rcases List.mem_append.mp h with h | h
            · exact Or.inl h
            · exact Or.inr (by simpa using List.mem_cons.mpr (Or.inl (by simpa using h)))
          · exact Or.inr (List.mem_cons_of_mem _ h)
        · rintro (h | h)
          · exact Or.inl (List.mem_append_left _ h)
          · rcases List.mem_cons.mp h with rfl | h
            · exact Or.inl (List.mem_append_right _ (by simp))
            · exact Or.inr h
  have h0 := aux l []
  simp only [List.not_mem_nil, false_or] at h0
  simpa [firstOccur] using h0

/-- `addArc` never removes a neighbour. -/
theorem allNeighbors_addArc_mono (adj : Adj) (u v w x : Nat)
    (hx : x ∈ NX.allNeighbors adj w) :
    x ∈ NX.allNeighbors (NX.addArc adj u v) w := by
  unfold NX.allNeighbors at hx ⊢
  unfold NX.addArc
  rw [List.find?_map]
  have hpred : ((fun p : Nat × List Nat => decide (p.1 = w)) ∘
      fun p : Nat × List Nat =>
        if p.1 = u then (p.1, if p.2.contains v then p.2 else p.2 ++ [v]) else p) =
      fun p : Nat × List Nat => decide (p.1 = w) := by
    funext p
    by_cases hp : p.1 = u <;> simp [hp]
  rw [hpred]
  cases hfind : adj.find? (fun p => p.1 = w) with
  | none => rw [hfind] at hx; simp at hx
  | some e =>
    rw [hfind] at hx
    simp only [Option.map_some', Option.getD_some] at hx ⊢
    by_cases he : e.1 = u
    · rw [if_pos he]
      split
      · exact hx
      · exact List.mem_append_left _ hx
    · rw [if_neg he]
      exact hx

/-- `ensureNode` never removes a neighbour. -/
theorem allNeighbors_ensureNode_mono (adj : Adj) (u w x : Nat)
    (hx : x ∈ NX.allNeighbors adj w) :
    x ∈ NX.allNeighbors (NX.ensureNode adj u) w := by
  unfold NX.ensureNode
  by_cases hk : hasKey adj u = true
  · rwa [if_pos hk]
  · rw [if_neg hk]
    unfold NX.allNeighbors at hx ⊢
    rw [List.find?_append]
    cases hfind : adj.find? (fun p => p.1 = w) with
    | none => rw [hfind] at hx; simp at hx
    | some e => rw [hfind] at hx; simpa using hx

/-- `add_edge` never removes a neighbour. -/
theorem allNeighbors_addEdge_mono (adj : Adj) (u v w x : Nat)
    (hx : x ∈ NX.allNeighbors adj w) :
    x ∈ NX.allNeighbors (NX.addEdge adj u v) w :=
  allNeighbors_addArc_mono _ _ _ _ _
    (allNeighbors_addArc_mono _ _ _ _ _
      (allNeighbors_ensureNode_mono _ _ _ _
        (allNeighbors_ensureNode_mono _ _ _ _ hx)))

/-- `ensureNode` registers its node. -/
theorem hasKey_ensureNode_self (adj : Adj) (u : Nat) :
    hasKey (NX.ensureNode adj u) u = true := by
  unfold NX.ensureNode
  by_cases hk : hasKey adj u = true
  · rwa [if_pos hk]
  · rw [if_neg hk]
    refine List.elem_iff.mpr ?_
    rw [List.map_append]
    exact List.mem_append_right _ (by simp)

/-- `ensureNode` keeps every registered node. -/
theorem hasKey_ensureNode_mono (adj : Adj) (u w : Nat) (h : hasKey adj w = true) :
    hasKey (NX.ensureNode adj u) w = true := by
  unfold NX.ensureNode
  by_cases hk : hasKey adj u = true
  · rwa [if_pos hk]
  · rw [if_neg hk]
    have hmem : w ∈ adj.map Prod.fst := List.elem_iff.mp h
    refine List.elem_iff.mpr ?_
    rw [List.map_append]
    exact List.mem_append_left _ hmem

/-- `addArc` changes no key set. -/
theorem hasKey_addArc (adj : Adj) (u v w : Nat) :
    hasKey (NX.addArc adj u v) w = hasKey adj w := by
  unfold hasKey NX.addArc
  rw [List.map_map]
  congr 1
  apply List.map_congr_left
  intro p _
  by_cases hp : p.1 = u <;> simp [hp]

/-- Writing the arc `u → v` on a registered `u` makes `v` a neighbour of `u`. -/
theorem mem_allNeighbors_addArc_self (adj : Adj) (u v : Nat)
    (h : hasKey adj u = true) :
    v ∈ NX.allNeighbors (NX.addArc adj u v) u := by
  obtain ⟨e, hfind, hkey⟩ := find?_key_of_hasKey adj u h
  unfold NX.allNeighbors NX.addArc
  rw [List.find?_map]
  have hpred : ((fun p : Nat × List Nat => decide (p.1 = u)) ∘
      fun p : Nat × List Nat =>
        if p.1 = u then (p.1, if p.2.contains v then p.2 else p.2 ++ [v]) else p) =
      fun p : Nat × List Nat => decide (p.1 = u) := by
    funext p
    by_cases hp : p.1 = u <;> simp [hp]
  rw [hpred, hfind]
  simp only [Option.map_some', Option.getD_some, if_pos hkey]
  split
  next hcond =>
    first
      | exact hcond
      | exact List.elem_iff.mp hcond
  next hcond => exact List.mem_append_right _ (by simp)

/-- `add_edge(u, v)` makes `v` a neighbour of `u` and `u` a neighbour of `v`. -/
theorem mem_allNeighbors_addEdge (adj : Adj) (u v : Nat) :
    v ∈ NX.allNeighbors (NX.addEdge adj u v) u ∧
      u ∈ NX.allNeighbors (NX.addEdge adj u v) v := by
  have hu : hasKey (NX.ensureNode (NX.ensureNode adj u) v) u = true :=
    hasKey_ensureNode_mono _ _ _ (hasKey_ensureNode_self adj u)
  have hv : hasKey (NX.ensureNode (NX.ensureNode adj u) v) v = true :=
    hasKey_ensureNode_self _ v
  constructor
  · exact allNeighbors_addArc_mono _ _ _ _ _ (mem_allNeighbors_addArc_self _ u v hu)
  · exact mem_allNeighbors_addArc_self _ v u (by rw [hasKey_addArc]; exact hv)

/-- The edge-insertion fold of `Graph.__init__` never removes a neighbour. -/
theorem allNeighbors_initFold_mono (names : List String) (ts : List Triple) :
    ∀ (adj : Adj) (w x : Nat), x ∈ NX.allNeighbors adj w →
      x ∈ NX.allNeighbors
        (ts.foldl
          (fun adj t =>
            NX.addEdge (NX.addEdge adj (Graph.keyIdx names t.head) (Graph.keyIdx names t.tail))
              (Graph.keyIdx names t.tail) (Graph.keyIdx names t.head))
          adj) w := by
  induction ts with
  | nil => intro adj w x hx; exact hx
  | cons t rest ih =>
    intro adj w x hx
    exact ih _ w x (allNeighbors_addEdge_mono _ _ _ _ _ (allNeighbors_addEdge_mono _ _ _ _ _ hx))

/-- Every triple's endpoints are mutual neighbours in the built graph. -/
theorem init_triple_edges (triples : List Triple) (t : Triple) (ht : t ∈ triples) :
    Graph.keyIdx (Graph.collectNodes triples) t.tail ∈
      NX.allNeighbors (Graph.init triples).adj
        (Graph.keyIdx (Graph.collectNodes triples) t.head) ∧
    Graph.keyIdx (Graph.collectNodes triples) t.head ∈
      NX.allNeighbors (Graph.init triples).adj
        (Graph.keyIdx (Graph.collectNodes triples) t.tail) := by
  obtain ⟨l1, l2, rfl⟩ := List.append_of_mem ht
  set names := Graph.collectNodes (l1 ++ t :: l2) with hnames
  set f := fun (adj : Adj) (t : Triple) =>
    NX.addEdge (NX.addEdge adj (Graph.keyIdx names t.head) (Graph.keyIdx names t.tail))
      (Graph.keyIdx names t.tail) (Graph.keyIdx names t.head) with hf
  have hadj : (Graph.init (l1 ++ t :: l2)).adj =
      l2.foldl f (f (l1.foldl f []) t) := by
    simp only [Graph.init, ← hnames, ← hf, List.foldl_append, List.foldl_cons]
  set A := l1.foldl f [] with hA
  have hstep := mem_allNeighbors_addEdge
    (NX.addEdge A (Graph.keyIdx names t.head) (Graph.keyIdx names t.tail))
    (Graph.keyIdx names t.tail) (Graph.keyIdx names t.head)
  have hinner := mem_allNeighbors_addEdge A
    (Graph.keyIdx names t.head) (Graph.keyIdx names t.tail)
  have h1 : Graph.keyIdx names t.tail ∈ NX.allNeighbors (f A t) (Graph.keyIdx names t.head) :=
    allNeighbors_addEdge_mono _ _ _ _ _ hinner.1
  have h2 : Graph.keyIdx names t.head ∈ NX.allNeighbors (f A t) (Graph.keyIdx names t.tail) :=
    hstep.1
  rw [hadj]
  exact ⟨allNeighbors_initFold_mono names l2 _ _ _ h1,
    allNeighbors_initFold_mono names l2 _ _ _ h2⟩

/-! ## C10: no isolated registered tag -/

/-- C10: for a non-empty triple list, every tag name registered in
`node_to_idx` has at least one incident edge: its index's neighbour list is
nonempty, so its degree is at least 1. -/
theorem init_registered_tag_degree_pos (triples : List Triple) (hne : triples ≠ [])
    (name : String) (i : Nat)
    (h : (Graph.init triples).node_to_idx name = some i) :
    1 ≤ NX.degree (Graph.init triples).adj i := by
  have hidx : idxOf? (Graph.collectNodes triples) name = some i := by
    simpa [Graph.node_to_idx, Graph.init] using h
  obtain ⟨hi, hget⟩ := idxOf?_spec hidx
  have hmem : name ∈ Graph.collectNodes triples := hget ▸ List.get_mem _ i hi
  have hmem2 : name ∈ triples.map (·.head) ++ triples.map (·.tail) :=
    (firstOccur_mem_iff _ name).mp hmem
  have hnbne : ∃ x, x ∈ NX.allNeighbors (Graph.init triples).adj i := by
    rcases List.mem_append.mp hmem2 with hh | ht
    · obtain ⟨t, ht, hth⟩ := List.mem_map.mp hh
      have hkey : Graph.keyIdx (Graph.collectNodes triples) t.head = i := by
        simp [Graph.keyIdx, hth, hidx]
      exact ⟨_, hkey ▸ (init_triple_edges triples t ht).1⟩
    · obtain ⟨t, ht, htt⟩ := List.mem_map.mp ht
      have hkey : Graph.keyIdx (Graph.collectNodes triples) t.tail = i := by
        simp [Graph.keyIdx, htt, hidx]
      exact ⟨_, hkey ▸ (init_triple_edges triples t ht).2⟩
  obtain ⟨x, hx⟩ := hnbne
  have hlen : 1 ≤ (NX.allNeighbors (Graph.init triples).adj i).length :=
    List.length_pos.mpr (List.ne_nil_of_mem hx)
  unfold NX.degree
  omega

/-- C10 (witness): in the one-edge graph, the registered tag `"a"` (index 0)
has degree at least 1. -/
theorem init_registered_tag_degree_pos_witness :
    1 ≤ NX.degree (Graph.init [⟨"a", "b"⟩]).adj 0 :=
  init_registered_tag_degree_pos [⟨"a", "b"⟩] (by decide) "a" 0 rfl

/-! ## C9: the visualization payload is closed -/

/-- Every `output_nodes` entry's record carries its key as `id`. -/
def idCoherent (out : List (String × Graph.VNode)) : Prop :=
  ∀ p ∈ out, p.2.id = p.1

/-- `dictInsert` with a matching record keeps id–key coherence. -/
theorem idCoherent_dictInsert (out : List (String × Graph.VNode)) (k : String)
    (v : Graph.VNode) (h : idCoherent out) (hv : v.id = k) :
    idCoherent (dictInsert out k v) := by
  intro p hp
  unfold dictInsert at hp
  by_cases hk : hasKey out k = true
  · rw [if_pos hk] at hp
    obtain ⟨q, hq, hqp⟩ := List.mem_map.mp hp
    by_cases hqk : q.1 = k
    · rw [if_pos hqk] at hqp
      rw [← hqp]
      exact hv
    · rw [if_neg hqk] at hqp
      exact hqp ▸ h q hq
  · rw [if_neg hk] at hp
    rcases List.mem_append.mp hp with hp | hp
    · exact h p hp
    · obtain rfl : p = (k, v) := by simpa using hp
      exact hv

/-- The seed loop keeps id–key coherence of `output_nodes`. -/
theorem idCoherent_seedFold (g : Graph) (color : String) (tagList : List String) :
    ∀ st : List (String × Graph.VNode) × List Nat, idCoherent st.1 →
      idCoherent (Graph.seedFold g color tagList st).1 := by
  induction tagList with
  | nil => intro st h; exact h
  | cons tag ts ih =>
    intro st h
    unfold Graph.seedFold
    rw [List.foldl_cons]
    cases hidx : g.node_to_idx tag with
    | none => exact ih _ (idCoherent_dictInsert _ _ _ h rfl)
    | some idx => exact ih _ (idCoherent_dictInsert _ _ _ h rfl)

/-- The intermediate-node loop keeps id–key coherence. -/
theorem idCoherent_addPathNodes (g : Graph) (paths : List (List Nat)) :
    ∀ out, idCoherent out → idCoherent (Graph.addPathNodes g out paths) := by
  have inner : ∀ (path : List Nat) (out : List (String × Graph.VNode)),
      idCoherent out →
      idCoherent (path.foldl
        (fun out idx =>
          if hasKey out (g.idxName idx) then out
          else out ++ [(g.idxName idx,
            { id := g.idxName idx, color := "#FFFFFF", degree := NX.degree g.adj idx,
              documentCount := g.docCount (g.idxName idx) })])
        out) := by
    intro path
    induction path with
    | nil => intro out h; exact h
    | cons idx rest ih =>
      intro out h
      rw [List.foldl_cons]
      refine ih _ ?_
      by_cases hk : hasKey out (g.idxName idx) = true
      · rwa [if_pos hk]
      · rw [if_neg hk]
        intro p hp
        rcases List.mem_append.mp hp with hp | hp
        · exact h p hp
        · obtain rfl : p = (g.idxName idx, _) := by simpa using hp
          rfl
  induction paths with
  | nil => intro out h; exact h
  | cons path rest ih =>
    intro out h
    unfold Graph.addPathNodes
    rw [List.foldl_cons]
    exact ih _ (inner path out h)

/-- The inner loop of `addPathNodes` only grows the key set. -/
theorem hasKey_pathFold_mono (g : Graph) (path : List Nat) :
    ∀ (out : List (String × Graph.VNode)) (name : String), hasKey out name = true →
      hasKey (path.foldl
        (fun out idx =>
          if hasKey out (g.idxName idx) then out
          else out ++ [(g.idxName idx,
            { id := g.idxName idx, color := "#FFFFFF", degree := NX.degree g.adj idx,
              documentCount := g.docCount (g.idxName idx) })])
        out) name = true := by
  induction path with
  | nil => intro out name h; exact h
  | cons idx rest ih =>
    intro out name h
    rw [List.foldl_cons]
    refine ih _ _ ?_
    by_cases hk : hasKey out (g.idxName idx) = true
    · rwa [if_pos hk]
    · rw [if_neg hk]
      refine List.elem_iff.mpr ?_
      rw [List.map_append]
      exact List.mem_append_left _ (List.elem_iff.mp h)

/-- The inner loop of `addPathNodes` registers the name of every path member. -/
theorem hasKey_pathFold_covers (g : Graph) (path : List Nat) :
    ∀ (out : List (String × Graph.VNode)) (idx : Nat), idx ∈ path →
      hasKey (path.foldl
        (fun out idx =>
          if hasKey out (g.idxName idx) then out
          else out ++ [(g.idxName idx,
            { id := g.idxName idx, color := "#FFFFFF", degree := NX.degree g.adj idx,
              documentCount := g.docCount (g.idxName idx) })])
        out) (g.idxName idx) = true := by
  induction path with
  | nil => intro out idx h; simp at h
  | cons j rest ih =>
    intro out idx h
    rw [List.foldl_cons]
    rcases List.mem_cons.mp h with rfl | h
    · refine hasKey_pathFold_mono g rest _ _ ?_
      by_cases hk : hasKey out (g.idxName idx) = true
      · rwa [if_pos hk]
      · rw [if_neg hk]
        refine List.elem_iff.mpr ?_
        rw [List.map_append]
        exact List.mem_append_right _ (by simp)
    · exact ih _ idx h

/-- `addPathNodes` only grows the key set. -/
theorem hasKey_addPathNodes_mono (g : Graph) (paths : List (List Nat)) :
    ∀ (out : List (String × Graph.VNode)) (name : String), hasKey out name = true →
      hasKey (Graph.addPathNodes g out paths) name = true := by
  induction paths with
  | nil => intro out name h; exact h
  | cons path rest ih =>
    intro out name h
    unfold Graph.addPathNodes
    rw [List.foldl_cons]
    exact ih _ name (hasKey_pathFold_mono g path out name h)

/-- After `addPathNodes`, the name of every member of every collected path is a
key of `output_nodes`. -/
theorem hasKey_addPathNodes_covers (g : Graph) (paths : List (List Nat))
    (out : List (String × Graph.VNode)) (path : List Nat) (idx : Nat)
    (hpath : path ∈ paths) (hidx : idx ∈ path) :
    hasKey (Graph.addPathNodes g out paths) (g.idxName idx) = true := by
  obtain ⟨l1, l2, rfl⟩ := List.append_of_mem hpath
  unfold Graph.addPathNodes
  rw [List.foldl_append, List.foldl_cons]
  exact hasKey_addPathNodes_mono g l2 _ _ (hasKey_pathFold_covers g path _ idx hidx)

/-- A key of a coherent `output_nodes` yields an output node with that id. -/
theorem output_node_of_hasKey (out : List (String × Graph.VNode)) (name : String)
    (h : hasKey out name = true) (hco : idCoherent out) :
    ∃ n ∈ out.map Prod.snd, n.id = name := by
  obtain ⟨p, hp, hp1⟩ := List.mem_map.mp (List.elem_iff.mp h)
  exact ⟨p.2, List.mem_map.mpr ⟨p, hp, rfl⟩, hp1 ▸ hco p hp⟩

/-- Membership of a keyed entry makes the key present. -/
theorem hasKey_of_mem_key {α β : Type} [DecidableEq α] (m : List (α × β)) (k : α)
    (p : α × β) (hp : p ∈ m) (hk : p.1 = k) : hasKey m k = true := by
  induction m with
  | nil => simp at hp
  | cons q qs ih =>
    rcases List.mem_cons.mp hp with rfl | hp
    · simp [hasKey, List.map_cons, List.contains_cons, hk]
    · simp only [hasKey, List.map_cons, List.contains_cons]
      exact Bool.or_eq_true_iff.mpr (Or.inr (ih hp))

/-- Key presence distributes over dict concatenation. -/
theorem hasKey_append {α β : Type} [DecidableEq α] (m1 m2 : List (α × β)) (k : α) :
    hasKey (m1 ++ m2) k = (hasKey m1 k || hasKey m2 k) := by
  induction m1 with
  | nil => simp [hasKey]
  | cons q qs ih =>
    simp only [List.cons_append, hasKey, List.map_cons, List.contains_cons]
    rw [show ((qs ++ m2).map Prod.fst).contains k = (hasKey qs k || hasKey m2 k) from ih]
    rw [Bool.or_assoc]
    rfl

/-- A bump changes no key or adds exactly the bumped key. -/
theorem hasKey_bump_cases (m : List ((Nat × Nat) × Nat)) (k0 key : Nat × Nat)
    (h : hasKey (Graph.bump m k0) key = true) :
    hasKey m key = true ∨ key = k0 := by
  unfold Graph.bump at h
  by_cases hk : hasKey m k0 = true
  · rw [if_pos hk] at h
    left
    have hmap : (m.map (fun p => if p.1 = k0 then (p.1, p.2 + 1) else p)).map Prod.fst =
        m.map Prod.fst := by
      rw [List.map_map]
      apply List.map_congr_left
      intro p _
      by_cases hp : p.1 = k0 <;> simp [hp]
    unfold hasKey at h ⊢
    rwa [hmap] at h
  · rw [if_neg hk, hasKey_append] at h
    rcases Bool.or_eq_true_iff.mp h with h | h
    · exact Or.inl h
    · right
      simp only [hasKey, List.map_cons, List.map_nil, List.contains_cons] at h
      rcases Bool.or_eq_true_iff.mp h with h | h
      · exact of_decide_eq_true h
      · simp at h

/-- Every key in the pair-occurrence dict is the sorted key of some adjacent
pair of some collected path. -/
theorem pairCounts_key_origin (paths : List (List Nat)) (key : Nat × Nat)
    (h : hasKey (Graph.pairCounts paths) key = true) :
    ∃ path ∈ paths, ∃ a b, (a, b) ∈ path.zip path.tail ∧ key = Graph.sortPair a b := by
  have inner : ∀ (l : List (Nat × Nat)) (m : List ((Nat × Nat) × Nat)),
      hasKey (l.foldl (fun m se => Graph.bump m (Graph.sortPair se.1 se.2)) m) key = true →
      hasKey m key = true ∨ ∃ se ∈ l, key = Graph.sortPair se.1 se.2 := by
    intro l
    induction l with
    | nil => intro m hm; exact Or.inl hm
    | cons se rest ih =>
      intro m hm
      rw [List.foldl_cons] at hm
      rcases ih _ hm with hm | ⟨se', hse', hkey⟩
      · rcases hasKey_bump_cases _ _ _ hm with hm | hm
        · exact Or.inl hm
        · exact Or.inr ⟨se, List.mem_cons_self _ _, hm⟩
      · exact Or.inr ⟨se', List.mem_cons_of_mem _ hse', hkey⟩
  have outer : ∀ (ps : List (List Nat)) (m : List ((Nat × Nat) × Nat)),
      hasKey (ps.foldl
        (fun m path =>
          (path.zip path.tail).foldl (fun m se => Graph.bump m (Graph.sortPair se.1 se.2)) m)
        m) key = true →
      hasKey m key = true ∨
        ∃ path ∈ ps, ∃ a b, (a, b) ∈ path.zip path.tail ∧ key = Graph.sortPair a b := by
    intro ps
    induction ps with
    | nil => intro m hm; exact Or.inl hm
    | cons path rest ih =>
      intro m hm
      rw [List.foldl_cons] at hm
      rcases ih _ hm with hm | ⟨p, hp, a, b, hab, hkey⟩
      · rcases inner _ _ hm with hm | ⟨se, hse, hkey⟩
        · exact Or.inl hm
        · exact Or.inr ⟨path, List.mem_cons_self _ _, se.1, se.2, by simpa using hse, hkey⟩
      · exact Or.inr ⟨p, List.mem_cons_of_mem _ hp, a, b, hab, hkey⟩
  rcases outer paths [] h with h0 | hres
  · simp [hasKey] at h0
  · exact hres

/-- Each component of a sorted pair is one of the two inputs. -/
theorem sortPair_cases (a b : Nat) :
    ((Graph.sortPair a b).1 = a ∨ (Graph.sortPair a b).1 = b) ∧
      ((Graph.sortPair a b).2 = a ∨ (Graph.sortPair a b).2 = b) := by
  unfold Graph.sortPair
  by_cases hab : a ≤ b <;> simp [hab]

/-- Every emitted link comes from a key of the pair-occurrence dict. -/
theorem format_triples_link_origin (g : Graph) (paths : List (List Nat))
    (l : Graph.Link) (hl : l ∈ g.format_triples paths) :
    ∃ key : Nat × Nat, hasKey (Graph.pairCounts paths) key = true ∧
      l.source = g.idxName key.1 ∧ l.target = g.idxName key.2 := by
  unfold Graph.format_triples at hl
  obtain ⟨p, hp, rfl⟩ := List.mem_map.mp hl
  exact ⟨p.1, hasKey_of_mem_key _ _ p hp rfl, rfl, rfl⟩

/-- C9: every link of the payload returned by `Graph.__call__` names only tags
that occur as the `id` of some returned node: path members are all added to
`output_nodes` (keyed and id'd by the same name) before the links are built
over the very same paths. -/
theorem call_links_closed (g : Graph) (tags retrieved_tags : List String)
    (k_yens k_walk : Nat) :
    ∀ l ∈ (g.call tags retrieved_tags k_yens k_walk).2,
      (∃ n ∈ (g.call tags retrieved_tags k_yens k_walk).1, n.id = l.source) ∧
      (∃ n ∈ (g.call tags retrieved_tags k_yens k_walk).1, n.id = l.target) := by
  intro l hl
  set st := Graph.seedFold g "#19bc8e" retrieved_tags
    (Graph.seedFold g "#86E5FF" tags ([], [])) with hst
  set paths := Graph.withWalks g st.2 (Graph.pathsPhase g st.2 k_yens) k_walk with hpaths
  have h1 : (g.call tags retrieved_tags k_yens k_walk).1 =
      (Graph.addPathNodes g st.1 paths).map Prod.snd := rfl
  have h2 : (g.call tags retrieved_tags k_yens k_walk).2 = g.format_triples paths := rfl
  rw [h2] at hl
  rw [h1]
  have hco : idCoherent (Graph.addPathNodes g st.1 paths) := by
    refine idCoherent_addPathNodes g paths _ ?_
    refine idCoherent_seedFold g _ retrieved_tags _ ?_
    refine idCoherent_seedFold g _ tags _ ?_
    intro p hp
    simp at hp
  obtain ⟨key, hkey, hsrc, htgt⟩ := format_triples_link_origin g paths l hl
  obtain ⟨path, hpath, a, b, hab, hkeyab⟩ := pairCounts_key_origin paths key hkey
  have hmem : a ∈ path ∧ b ∈ path := by
    have h3 := List.of_mem_zip hab
    exact ⟨h3.1, List.mem_of_mem_tail h3.2⟩
  have hkey1 : key.1 ∈ path := by
    rcases (hkeyab ▸ sortPair_cases a b).1 with h | h
    · exact h ▸ hmem.1
    · exact h ▸ hmem.2
  have hkey2 : key.2 ∈ path := by
    rcases (hkeyab ▸ sortPair_cases a b).2 with h | h
    · exact h ▸ hmem.1
    · exact h ▸ hmem.2
  constructor
  · rw [hsrc]
    exact output_node_of_hasKey _ _
      (hasKey_addPathNodes_covers g paths st.1 path key.1 hpath hkey1) hco
  · rw [htgt]
    exact output_node_of_hasKey _ _
      (hasKey_addPathNodes_covers g paths st.1 path key.2 hpath hkey2) hco

/-- C9 (witness): on the single-edge graph with seeds `"a"` and `"b"`, the one
emitted link `a — b` has both endpoints among the returned node ids. -/
theorem call_links_closed_witness :
    (∃ n ∈ (Graph.call exGraphEdge ["a", "b"] [] 3 3).1, n.id = "a") ∧
      (∃ n ∈ (Graph.call exGraphEdge ["a", "b"] [] 3 3).1, n.id = "b") :=
  call_links_closed exGraphEdge ["a", "b"] [] 3 3
    ⟨"a", "link", "b", 1, ((1 : ℕ) : ℚ) / ((1 : ℕ) : ℚ)⟩
    (by
      rw [show (Graph.call exGraphEdge ["a", "b"] [] 3 3).2 =
        [⟨"a", "link", "b", 1, ((1 : ℕ) : ℚ) / ((1 : ℕ) : ℚ)⟩] from rfl]
      exact List.mem_singleton.mpr rfl)

/-! ## C7: self-loop links -/

/-- First-occurrence deduplication yields distinct names. -/
theorem firstOccur_nodup (l : List String) : (firstOccur l).Nodup := by
  have aux : ∀ (ys : List String) (acc : List String), acc.Nodup →
      (ys.foldl (fun acc n => if acc.contains n then acc else acc ++ [n]) acc).Nodup := by
    intro ys
    induction ys with
    | nil => intro acc h; exact h
    | cons n ns ih =>
      intro acc h
      rw [List.foldl_cons]
      by_cases hc : acc.contains n = true
      · rw [if_pos hc]
        exact ih acc h
      · rw [if_neg hc]
        refine ih _ ?_
        have hn : n ∉ acc := fun hmem => hc (List.elem_iff.mpr hmem)
        simp [List.nodup_append, h, hn]
  exact aux l [] List.nodup_nil

/-- A present name resolves to some index. -/
theorem idxOf?_isSome_of_mem {l : List String} {name : String} (h : name ∈ l) :
    ∃ i, idxOf? l name = some i := by
  induction l with
  | nil => simp at h
  | cons x xs ih =>
    by_cases hx : x = name
    · exact ⟨0, by simp [idxOf?, hx]⟩
    · rcases List.mem_cons.mp h with rfl | h
      · exact absurd rfl hx
      · obtain ⟨j, hj⟩ := ih h
        exact ⟨j + 1, by simp [idxOf?, hx, hj]⟩

/-- Distinct names resolve to distinct indices. -/
theorem idxOf?_inj {l : List String} {a b : String} {i j : Nat}
    (ha : idxOf? l a = some i) (hb : idxOf? l b = some j) (hab : a ≠ b) : i ≠ j := by
  obtain ⟨hi, hgi⟩ := idxOf?_spec ha
  obtain ⟨hj, hgj⟩ := idxOf?_spec hb
  intro hij
  exact hab (by rw [← hgi, ← hgj]; congr 1; exact Fin.ext hij)

/-- `addArc` either leaves a neighbour list unchanged, or appends the new
neighbour `v` (only at `u`, only when `v` was absent). -/
theorem allNeighbors_addArc_cases (adj : Adj) (u v w : Nat) :
    NX.allNeighbors (NX.addArc adj u v) w = NX.allNeighbors adj w ∨
    (w = u ∧ v ∉ NX.allNeighbors adj w ∧
      NX.allNeighbors (NX.addArc adj u v) w = NX.allNeighbors adj w ++ [v]) := by
  unfold NX.allNeighbors NX.addArc
  rw [List.find?_map]
  have hpred : ((fun p : Nat × List Nat => decide (p.1 = w)) ∘
      fun p : Nat × List Nat =>
        if p.1 = u then (p.1, if p.2.contains v then p.2 else p.2 ++ [v]) else p) =
      fun p : Nat × List Nat => decide (p.1 = w) := by
    funext p
    by_cases hp : p.1 = u <;> simp [hp]
  rw [hpred]
  cases hfind : adj.find? (fun p => p.1 = w) with
  | none => left; simp
  | some e =>
    have hew : e.1 = w := by simpa using List.find?_some hfind
    simp only [Option.map_some', Option.getD_some]
    by_cases heu : e.1 = u
    · rw [if_pos heu]
      by_cases hc : e.2.contains v = true
      · left
        rw [if_pos hc]
      · right
        refine ⟨hew ▸ heu, fun hmem => hc (List.elem_iff.mpr hmem), ?_⟩
        rw [if_neg hc]
    · rw [if_neg heu]
      left; rfl

/-- `ensureNode` leaves every neighbour list unchanged or empty. -/
theorem allNeighbors_ensureNode_cases (adj : Adj) (u w : Nat) :
    NX.allNeighbors (NX.ensureNode adj u) w = NX.allNeighbors adj w ∨
    NX.allNeighbors (NX.ensureNode adj u) w = [] := by
  unfold NX.ensureNode
  by_cases hk : hasKey adj u = true
  · rw [if_pos hk]; left; rfl
  · rw [if_neg hk]
    unfold NX.allNeighbors
    rw [List.find?_append]
    cases hfind : adj.find? (fun p => p.1 = w) with
    | some e => left; simp
    | none =>
      right
      by_cases huw : u = w <;> simp [List.find?, huw]

/-- The invariants of a graph built from a loop-free triple list: neighbour
indices are in range, no node neighbours itself, neighbour lists are
duplicate-free. -/
def GraphInv (n : Nat) (adj : Adj) : Prop :=
  (∀ u v, v ∈ NX.allNeighbors adj u → v < n) ∧
  (∀ u, u ∉ NX.allNeighbors adj u) ∧
  (∀ u, (NX.allNeighbors adj u).Nodup)

/-- `ensureNode` preserves the graph invariants. -/
theorem graphInv_ensureNode (n : Nat) (adj : Adj) (u : Nat) (hinv : GraphInv n adj) :
    GraphInv n (NX.ensureNode adj u) := by
  obtain ⟨hb, hl, hn⟩ := hinv
  refine ⟨?_, ?_, ?_⟩
  · intro w x hx
    rcases allNeighbors_ensureNode_cases adj u w with hc | hc
    · exact hb w x (hc ▸ hx)
    · rw [hc] at hx; simp at hx
  · intro w hw
    rcases allNeighbors_ensureNode_cases adj u w with hc | hc
    · exact hl w (hc ▸ hw)
    · rw [hc] at hw; simp at hw
  · intro w
    rcases allNeighbors_ensureNode_cases adj u w with hc | hc
    · exact hc ▸ hn w
    · exact hc ▸ List.nodup_nil

/-- `addArc u v` with `u ≠ v` and `v` in range preserves the invariants. -/
theorem graphInv_addArc (n : Nat) (adj : Adj) (u v : Nat) (hinv : GraphInv n adj)
    (huv : u ≠ v) (hv : v < n) : GraphInv n (NX.addArc adj u v) := by
  obtain ⟨hb, hl, hn⟩ := hinv
  refine ⟨?_, ?_, ?_⟩
  · intro w x hx
    rcases allNeighbors_addArc_cases adj u v w with hc | ⟨rfl, hvm, hc⟩
    · exact hb w x (hc ▸ hx)
    · rw [hc] at hx
      rcases List.mem_append.mp hx with hx | hx
      · exact hb w x hx
      · obtain rfl : x = v := by simpa using hx
        exact hv
  · intro w hw
    rcases allNeighbors_addArc_cases adj u v w with hc | ⟨rfl, hvm, hc⟩
    · exact hl w (hc ▸ hw)
    · rw [hc] at hw
      rcases List.mem_append.mp hw with hw | hw
      · exact hl w hw
      · exact huv (by simpa using hw)
  · intro w
    rcases allNeighbors_addArc_cases adj u v w with hc | ⟨rfl, hvm, hc⟩
    · exact hc ▸ hn w
    · rw [hc]
      simp [List.nodup_append, hn w, hvm]

/-- `add_edge u v` with `u ≠ v`, both in range, preserves the invariants. -/
theorem graphInv_addEdge (n : Nat) (adj : Adj) (u v : Nat) (hinv : GraphInv n adj)
    (huv : u ≠ v) (hu : u < n) (hv : v < n) : GraphInv n (NX.addEdge adj u v) :=
  graphInv_addArc n _ v u
    (graphInv_addArc n _ u v
      (graphInv_ensureNode n _ v (graphInv_ensureNode n _ u hinv)) huv hv)
    (fun h => huv h.symm) hu

/-- The graph built from a loop-free triple list satisfies the invariants. -/
theorem graphInv_init (triples : List Triple)
    (hnl : ∀ t ∈ triples, t.head ≠ t.tail) :
    GraphInv (Graph.collectNodes triples).length (Graph.init triples).adj := by
  set names := Graph.collectNodes triples with hnames
  have hvalid : ∀ t ∈ triples, ∃ i j,
      idxOf? names t.head = some i ∧ idxOf? names t.tail = some j := by
    intro t ht
    have hh : t.head ∈ names := by
      refine (firstOccur_mem_iff _ _).mpr ?_
      exact List.mem_append_left _ (List.mem_map.mpr ⟨t, ht, rfl⟩)
    have htl : t.tail ∈ names := by
      refine (firstOccur_mem_iff _ _).mpr ?_
      exact List.mem_append_right _ (List.mem_map.mpr ⟨t, ht, rfl⟩)
    obtain ⟨i, hi⟩ := idxOf?_isSome_of_mem hh
    obtain ⟨j, hj⟩ := idxOf?_isSome_of_mem htl
    exact ⟨i, j, hi, hj⟩
  have hstep : ∀ (ts : List Triple), (∀ t ∈ ts, t ∈ triples) → ∀ adj : Adj,
      GraphInv names.length adj →
      GraphInv names.length (ts.foldl
        (fun adj t =>
          NX.addEdge (NX.addEdge adj (Graph.keyIdx names t.head) (Graph.keyIdx names t.tail))
            (Graph.keyIdx names t.tail) (Graph.keyIdx names t.head))
        adj) := by
    intro ts
    induction ts with
    | nil => intro _ adj h; exact h
    | cons t rest ih =>
      intro hsub adj h
      rw [List.foldl_cons]
      have ht : t ∈ triples := hsub t (List.mem_cons_self _ _)
      obtain ⟨i, j, hi, hj⟩ := hvalid t ht
      have hki : Graph.keyIdx names t.head = i := by simp [Graph.keyIdx, hi]
      have hkj : Graph.keyIdx names t.tail = j := by simp [Graph.keyIdx, hj]
      have hij : i ≠ j := idxOf?_inj hi hj (hnl t ht)
      have hilt : i < names.length := (idxOf?_spec hi).fst
      have hjlt : j < names.length := (idxOf?_spec hj).fst
      refine ih (fun t' ht' => hsub t' (List.mem_cons_of_mem _ ht')) _ ?_
      rw [hki, hkj]
      exact graphInv_addEdge _ _ j i
        (graphInv_addEdge _ _ i j h hij hilt hjlt)
        (fun hc => hij hc.symm) hjlt hilt
  have hbase : GraphInv names.length ([] : Adj) := by
    refine ⟨?_, ?_, ?_⟩ <;> intro u <;> simp [NX.allNeighbors, List.find?]
  exact hstep triples (fun _ h => h) [] hbase

/-- Shape of the DFS simple-path enumeration: each path starts at the source,
has pairwise-distinct adjacent nodes, and all later nodes are neighbours of
some node. -/
theorem simplePathsAux_shape (adj : Adj) :
    ∀ (fuel cur t : Nat) (visited : List Nat) (p : List Nat),
      p ∈ NX.simplePathsAux adj fuel cur t visited →
      ∃ q, p = cur :: q ∧ List.Chain' (· ≠ ·) (cur :: q) ∧
        ∀ x ∈ q, ∃ u, x ∈ NX.allNeighbors adj u := by
  intro fuel
  induction fuel with
  | zero => intro cur t visited p hp; simp [NX.simplePathsAux] at hp
  | succ fuel ih =>
    intro cur t visited p hp
    unfold NX.simplePathsAux at hp
    by_cases hct : cur = t
    · rw [if_pos hct] at hp
      obtain rfl : p = [cur] := by simpa using hp
      exact ⟨[], rfl, List.chain'_singleton _, by simp⟩
    · rw [if_neg hct] at hp
      obtain ⟨v, hv, hp⟩ := List.mem_flatMap.mp hp
      obtain ⟨p', hp', rfl⟩ := List.mem_map.mp hp
      obtain ⟨hvmem, hvnew⟩ := List.mem_filter.mp hv
      have hvnotin : v ∉ cur :: visited := by
        intro hmem
        have := of_decide_eq_true hvnew
        exact this (List.elem_iff.mpr hmem)
      have hvcur : cur ≠ v := fun hc => hvnotin (hc ▸ List.mem_cons_self _ _)
      obtain ⟨q', rfl, hchain, hnb⟩ := ih v t (cur :: visited) p' hp'
      refine ⟨v :: q', rfl, ?_, ?_⟩
      · refine List.chain'_cons'.mpr ⟨?_, hchain⟩
        intro y hy
        obtain rfl : v = y := by simpa using hy
        exact hvcur
      · intro x hx
        rcases List.mem_cons.mp hx with rfl | hx
        · exact ⟨cur, hvmem⟩
        · exact hnb x hx

/-- The `yens` loop only keeps candidates. -/
theorem yensLoop_subset (cands : List (List Nat)) (k : Nat) :
    ∀ idx p, p ∈ Graph.yensLoop cands k idx → p ∈ cands := by
  induction cands with
  | nil => intro idx p hp; simp [Graph.yensLoop] at hp
  | cons c rest ih =>
    intro idx p hp
    unfold Graph.yensLoop at hp
    rcases List.mem_append.mp hp with hp | hp
    · by_cases hc : c.length ≤ 3
      · simp only [if_pos hc] at hp
        obtain rfl : p = c := by simpa using hp
        exact List.mem_cons_self _ _
      · simp [if_neg hc] at hp
    · by_cases hbreak : idx > k
      · simp [if_pos hbreak] at hp
      · simp only [if_neg hbreak] at hp
        exact List.mem_cons_of_mem _ (ih (idx + 1) p hp)

/-- Whatever `tryYens` returns is a simple path of the graph. -/
theorem tryYens_subset_simplePaths (g : Graph) (s t k : Nat) (p : List Nat)
    (hp : p ∈ Graph.tryYens g s t k) : p ∈ NX.allSimplePaths g.adj s t := by
  unfold Graph.tryYens Graph.yens NX.shortestSimplePathsE at hp
  by_cases h1 : ¬ (NX.isNode g.adj s = true ∧ NX.isNode g.adj t = true)
  · rw [if_pos h1] at hp
    simp [Except.map] at hp
  · rw [if_neg h1] at hp
    by_cases h2 : NX.allSimplePaths g.adj s t = []
    · rw [if_pos h2] at hp
      simp [Except.map] at hp
    · rw [if_neg h2] at hp
      simp only [Except.map] at hp
      have hmem : p ∈ NX.sortedSimplePaths g.adj s t :=
        yensLoop_subset _ k 0 p hp
      exact (List.perm_insertionSort _ _).mem_iff.mp hmem

/-- Members of `combinations(nodes, 2)` are members of `nodes`. -/
theorem combinations2_mem (nodes : List Nat) :
    ∀ se ∈ Graph.combinations2 nodes, se.1 ∈ nodes ∧ se.2 ∈ nodes := by
  induction nodes with
  | nil => intro se hse; simp [Graph.combinations2] at hse
  | cons x xs ih =>
    intro se hse
    unfold Graph.combinations2 at hse
    rcases List.mem_append.mp hse with hse | hse
    · obtain ⟨y, hy, rfl⟩ := List.mem_map.mp hse
      exact ⟨List.mem_cons_self _ _, List.mem_cons_of_mem _ hy⟩
    · obtain ⟨h1, h2⟩ := ih se hse
      exact ⟨List.mem_cons_of_mem _ h1, List.mem_cons_of_mem _ h2⟩

/-- Every path collected by the pairwise search phase comes from `tryYens` on
a pair of seed indices. -/
theorem pathsPhase_mem (g : Graph) (nodes : List Nat) (k_yens : Nat) (p : List Nat)
    (hp : p ∈ Graph.pathsPhase g nodes k_yens) :
    ∃ s t, s ∈ nodes ∧ t ∈ nodes ∧ p ∈ Graph.tryYens g s t k_yens := by
  unfold Graph.pathsPhase at hp
  by_cases hlen : 2 ≤ nodes.length
  · rw [if_pos hlen] at hp
    have aux : ∀ (l : List (Nat × Nat)) (acc : List (List Nat)),
        p ∈ l.foldl
          (fun acc se => if se.1 ≠ se.2 then acc ++ Graph.tryYens g se.1 se.2 k_yens else acc)
          acc →
        p ∈ acc ∨ ∃ se ∈ l, p ∈ Graph.tryYens g se.1 se.2 k_yens := by
      intro l
      induction l with
      | nil => intro acc h; exact Or.inl h
      | cons se rest ih =>
        intro acc h
        rw [List.foldl_cons] at h
        rcases ih _ h with h | ⟨se', hse', hp'⟩
        · by_cases hne : se.1 ≠ se.2
          · rw [if_pos hne] at h
            rcases List.mem_append.mp h with h | h
            · exact Or.inl h
            · exact Or.inr ⟨se, List.mem_cons_self _ _, h⟩
          · rw [if_neg hne] at h
            exact Or.inl h
        · exact Or.inr ⟨se', List.mem_cons_of_mem _ hse', hp'⟩
    rcases aux _ [] hp with h | ⟨se, hse, hp'⟩
    · simp at h
    · obtain ⟨h1, h2⟩ := combinations2_mem nodes se hse
      exact ⟨se.1, se.2, h1, h2, hp'⟩
  · rw [if_neg hlen] at hp
    simp at hp

/-- Every collected path is a pairwise-search path or a walk from a seed. -/
theorem withWalks_mem (g : Graph) (nodes : List Nat) (paths : List (List Nat))
    (k_walk : Nat) (p : List Nat) (hp : p ∈ Graph.withWalks g nodes paths k_walk) :
    p ∈ paths ∨ ∃ s ∈ nodes, p = g.walk s k_walk := by
  unfold Graph.withWalks at hp
  by_cases hcond : nodes.length = 1 ∨ paths = []
  · rw [if_pos hcond] at hp
    rcases List.mem_append.mp hp with hp | hp
    · exact Or.inl hp
    · obtain ⟨s, hs, hps⟩ := List.mem_map.mp hp
      exact Or.inr ⟨s, hs, hps.symm⟩
  · rw [if_neg hcond] at hp
    exact Or.inl hp

/-- Every index collected by the seed loop resolves some tag. -/
theorem seedFold_nodes (g : Graph) (color : String) (tagList : List String) :
    ∀ (st : List (String × Graph.VNode) × List Nat) (i : Nat),
      i ∈ (Graph.seedFold g color tagList st).2 →
      i ∈ st.2 ∨ ∃ tag, g.node_to_idx tag = some i := by
  induction tagList with
  | nil => intro st i h; exact Or.inl h
  | cons tag ts ih =>
    intro st i h
    cases hidx : g.node_to_idx tag with
    | none =>
      have h' : i ∈ (Graph.seedFold g color ts
          (dictInsert st.1 tag
            { id := tag, color := color, degree := 0, documentCount := g.docCount tag },
           st.2)).2 := by
        unfold Graph.seedFold at h ⊢
        rw [List.foldl_cons] at h
        simpa [hidx] using h
      rcases ih _ i h' with h' | h'
      · exact Or.inl h'
      · exact Or.inr h'
    | some idx =>
      have h' : i ∈ (Graph.seedFold g color ts
          (dictInsert st.1 tag
            { id := tag, color := color, degree := NX.degree g.adj idx,
              documentCount := g.docCount tag },
           st.2 ++ [idx])).2 := by
        unfold Graph.seedFold at h ⊢
        rw [List.foldl_cons] at h
        simpa [hidx] using h
      rcases ih _ i h' with h' | h'
      · rcases List.mem_append.mp h' with h'' | h''
        · exact Or.inl h''
        · obtain rfl : i = idx := by simpa using h''
          exact Or.inr ⟨tag, hidx⟩
      · exact Or.inr h'

/-- Adjacent pairs of a chain are related. -/
theorem chain'_zip_rel {R : Nat → Nat → Prop} :
    ∀ (p : List Nat), List.Chain' R p → ∀ a b, (a, b) ∈ p.zip p.tail → R a b := by
  intro p
  induction p with
  | nil => intro _ a b h; simp at h
  | cons x xs ih =>
    intro hchain a b h
    cases xs with
    | nil => simp at h
    | cons y ys =>
      simp only [List.tail_cons, List.zip_cons_cons] at h
      rcases List.mem_cons.mp h with heq | h
      · obtain ⟨rfl, rfl⟩ : a = x ∧ b = y := by
          constructor <;> simp [Prod.ext_iff] at heq <;> tauto
        exact (List.chain'_cons.mp hchain).1
      · exact ih (List.chain'_cons.mp hchain).2 a b (by simpa using h)

/-- A sorted pair is one of the two orderings of its inputs. -/
theorem sortPair_eq_or (a b : Nat) :
    Graph.sortPair a b = (a, b) ∨ Graph.sortPair a b = (b, a) := by
  unfold Graph.sortPair
  by_cases hab : a ≤ b <;> simp [hab]

/-- C7 (amended): when no co-occurrence triple has `head = tail` (so the graph
has no self-loop edge), no link emitted by `Graph.__call__` has source equal
to target: yens paths are simple and walks start at a node absent from its own
neighbour list, so adjacent path nodes are distinct indices, and distinct
valid indices carry distinct tag names. -/
theorem call_no_self_loop_links (triples : List Triple)
    (tags retrieved_tags : List String) (k_yens k_walk : Nat)
    (hnl : ∀ t ∈ triples, t.head ≠ t.tail) :
    ∀ l ∈ ((Graph.init triples).call tags retrieved_tags k_yens k_walk).2,
      l.source ≠ l.target := by
  intro l hl
  obtain ⟨hbound, hloops, hnodup⟩ := graphInv_init triples hnl
  set st := Graph.seedFold (Graph.init triples) "#19bc8e" retrieved_tags
    (Graph.seedFold (Graph.init triples) "#86E5FF" tags ([], [])) with hst
  set paths := Graph.withWalks (Graph.init triples) st.2
    (Graph.pathsPhase (Graph.init triples) st.2 k_yens) k_walk with hpaths
  have h2 : ((Graph.init triples).call tags retrieved_tags k_yens k_walk).2 =
      (Graph.init triples).format_triples paths := rfl
  rw [h2] at hl
  have hnodes : ∀ i ∈ st.2, i < (Graph.collectNodes triples).length := by
    intro i hi
    rcases seedFold_nodes _ _ retrieved_tags _ i hi with hi2 | ⟨tag, htag⟩
    · rcases seedFold_nodes _ _ tags _ i hi2 with hi3 | ⟨tag, htag⟩
      · simp at hi3
      · have htag' : idxOf? (Graph.collectNodes triples) tag = some i := htag
        exact (idxOf?_spec htag').fst
    · have htag' : idxOf? (Graph.collectNodes triples) tag = some i := htag
      exact (idxOf?_spec htag').fst
  have hgood : ∀ p ∈ paths, List.Chain' (· ≠ ·) p ∧
      ∀ x ∈ p, x < (Graph.collectNodes triples).length := by
    intro p hp
    rcases withWalks_mem _ _ _ _ p hp with hp | ⟨s, hs, rfl⟩
    · obtain ⟨a, b, ha, hb, hpy⟩ := pathsPhase_mem _ _ _ p hp
      have hsp := tryYens_subset_simplePaths _ a b k_yens p hpy
      obtain ⟨q, rfl, hchain, hnb⟩ :=
        simplePathsAux_shape (Graph.init triples).adj
          ((Graph.init triples).adj.length + 1) a b [] _ hsp
      refine ⟨hchain, ?_⟩
      intro x hx
      rcases List.mem_cons.mp hx with rfl | hx
      · exact hnodes x ha
      · obtain ⟨u, hu⟩ := hnb x hx
        exact hbound u x hu
    · have hwalk : Graph.walk (Graph.init triples) s k_walk =
          s :: (NX.allNeighbors (Graph.init triples).adj s).take (k_walk + 2) := by
        have hwl := walkLoop_eq_take (NX.allNeighbors (Graph.init triples).adj s)
          k_walk 0 (by omega)
        simp only [Nat.sub_zero] at hwl
        simp only [Graph.walk, hwl]
      rw [hwalk]
      have htakesub : List.Sublist
          ((NX.allNeighbors (Graph.init triples).adj s).take (k_walk + 2))
          (NX.allNeighbors (Graph.init triples).adj s) := List.take_sublist _ _
      constructor
      · have hnd : ((NX.allNeighbors (Graph.init triples).adj s).take (k_walk + 2)).Nodup :=
          htakesub.nodup (hnodup s)
        refine List.chain'_cons'.mpr ⟨?_, List.Pairwise.chain' hnd⟩
        intro y hy
        have hymem : y ∈ NX.allNeighbors (Graph.init triples).adj s :=
          htakesub.subset (List.mem_of_mem_head? hy)
        intro hsy
        exact hloops s (hsy ▸ hymem)
      · intro x hx
        rcases List.mem_cons.mp hx with rfl | hx
        · exact hnodes x hs
        · exact hbound s x (htakesub.subset hx)
  obtain ⟨key, hkey, hsrc, htgt⟩ := format_triples_link_origin _ paths l hl
  obtain ⟨path, hpath, a, b, hab, hkeyab⟩ := pairCounts_key_origin paths key hkey
  obtain ⟨hchain, hvalidp⟩ := hgood path hpath
  have habne : a ≠ b := chain'_zip_rel path hchain a b hab
  have hmemab := List.of_mem_zip hab
  have ha : a < (Graph.collectNodes triples).length := hvalidp a hmemab.1
  have hb : b < (Graph.collectNodes triples).length :=
    hvalidp b (List.mem_of_mem_tail hmemab.2)
  have hkey12 : key.1 ≠ key.2 ∧ key.1 < (Graph.collectNodes triples).length ∧
      key.2 < (Graph.collectNodes triples).length := by
    rcases sortPair_eq_or a b with hc | hc
    · rw [hkeyab, hc]
      exact ⟨habne, ha, hb⟩
    · rw [hkeyab, hc]
      exact ⟨fun hcc => habne hcc.symm, hb, ha⟩
  have hgetD : ∀ (i : Nat) (hi : i < (Graph.collectNodes triples).length),
      (Graph.collectNodes triples).getD i "" = (Graph.collectNodes triples).get ⟨i, hi⟩ := by
    intro i hi
    rw [List.getD_eq_getElem?_getD, List.getElem?_eq_getElem hi]
    rfl
  have hname1 : l.source = (Graph.collectNodes triples).get ⟨key.1, hkey12.2.1⟩ := by
    rw [hsrc]
    exact hgetD key.1 hkey12.2.1
  have hname2 : l.target = (Graph.collectNodes triples).get ⟨key.2, hkey12.2.2⟩ := by
    rw [htgt]
    exact hgetD key.2 hkey12.2.2
  rw [hname1, hname2]
  intro heq
  have hnodupnames : (Graph.collectNodes triples).Nodup := firstOccur_nodup _
  exact hkey12.1 ((hnodupnames.getElem_inj_iff).mp heq)

/-- C7 (counterexample): from the single self-loop triple `a — a`, the call on
seed `"a"` walks through the self-loop and emits the link `a — a` with source
equal to target. -/
theorem call_self_loop_counterexample :
    ((Graph.call exGraphSelfLoop ["a"] [] 3 3).2).map (fun l => (l.source, l.target)) =
      [("a", "a")] := by decide

/-- C7 (witness): with the loop-free triple `a — b` and seeds `"a"`, `"b"`,
the emitted link `a — b` has distinct endpoints. -/
theorem call_no_self_loop_links_witness :
    (Graph.Link.mk "a" "link" "b" 1 (((1 : ℕ) : ℚ) / ((1 : ℕ) : ℚ))).source ≠
      (Graph.Link.mk "a" "link" "b" 1 (((1 : ℕ) : ℚ) / ((1 : ℕ) : ℚ))).target :=
  call_no_self_loop_links [⟨"a", "b"⟩] ["a", "b"] [] 3 3 (by decide)
    (Graph.Link.mk "a" "link" "b" 1 (((1 : ℕ) : ℚ) / ((1 : ℕ) : ℚ)))
    (by
      rw [show ((Graph.init [⟨"a", "b"⟩]).call ["a", "b"] [] 3 3).2 =
        [Graph.Link.mk "a" "link" "b" 1 (((1 : ℕ) : ℚ) / ((1 : ℕ) : ℚ))] from rfl]
      exact List.mem_singleton.mpr rfl)
